import Mathlib

/-!
# Verification of `HashTable` (src/HashMap.h)

Open addressing with linear probing over a flat slot array, a parallel
occupancy-marker array and a live-element counter.

Conventions of the embedding.

* `std::vector` is a `List`; `operator[]` outside the bounds and `% 0` are
  undefined behaviour in C++ and are reported as `Fault.undefined`.
* A member function that is not `const` returns the state after the call next
  to its result; `Find` is `const` and returns its result only.
* `Hash` and `KeyEqual` are the template parameters, passed explicitly.
* `size_t` is `Nat`: a count or an index never exceeds the length of a vector,
  which is far below `2 ^ 64`; the value of `Hash` is only used modulo the
  capacity.
* A reference `V&` is read at the moment the call returns; an `Iterator` is its
  slot index.
* The parameter `const K& key` of `operator[]` is a `KeyRef`: the member reads it
  again after it may have replaced the storage of the table. `at` and `find`
  read their parameter only while the table is as they found it. `insert` reads
  its parameter again after `AddElement`, but a pair that is an element of the
  table has a present key, for which `AddElement` is not called; its parameter
  is passed by value.
-/

set_option linter.unusedSectionVars false

namespace HashMap

/-- Ways in which a call fails to return normally. -/
inductive Fault where
  /-- The `throw std::exception()` of `at`. -/
  | exception
  /-- An out-of-range vector access or a modulo by zero. -/
  | undefined
  /-- The probe loop of `Find` never reaches a slot at which it stops. -/
  | diverges
  /-- The nesting budget of `AddElement` inside `Rebuild` is used up; the member
  `AddElement` never ends so (`AddElement_ne_fuel`). -/
  | fuel
  deriving DecidableEq, Repr

/-- The three data members of `HashTable` (lines 229-231). -/
structure HashTable (K V : Type) where
  hash_map_ : List (K × V)
  is_empty_ : List Bool
  elements_count_ : Nat
  deriving DecidableEq, Repr

/-- The member `MIN_SIZE = 12` (line 234). -/
def MIN_SIZE : Nat := 12

/-- Numerator of the member `MAX_LOAD_FACTOR = 1. / 4` (line 233). -/
def MAX_LOAD_FACTOR_NUM : Nat := 1

/-- Denominator of the member `MAX_LOAD_FACTOR = 1. / 4` (line 233). -/
def MAX_LOAD_FACTOR_DEN : Nat := 4

/-- The call `v.resize(n, fill)` of `std::vector`: the first `n` elements are
kept, and the vector is padded with `fill` up to length `n`. -/
def resize {α : Type} (xs : List α) (n : Nat) (fill : α) : List α :=
  xs.take n ++ List.replicate (n - xs.length) fill

/-- The assignment `v[i] = x` of `std::vector`. -/
def store {α : Type} (xs : List α) (i : Nat) (x : α) : Except Fault (List α) :=
  if i < xs.length then .ok (xs.set i x) else .error .undefined

section Operations

variable {K V : Type} [Inhabited K] [Inhabited V]

/-- The constructor `HashTable()` (lines 10-14). -/
def HashTable.new : HashTable K V :=
  { hash_map_ := resize [] MIN_SIZE default
    is_empty_ := resize [] MIN_SIZE true
    elements_count_ := 0 }

/-- The private constructor `HashTable(const size_t size)` (lines 81-85). -/
def HashTable.sized (size : Nat) : HashTable K V :=
  { hash_map_ := resize [] size default
    is_empty_ := resize [] size true
    elements_count_ := 0 }

/-- The member `size()` (lines 66-68). -/
def HashTable.size (t : HashTable K V) : Nat := t.elements_count_

/-- The member `empty()` (lines 70-72). -/
def HashTable.empty (t : HashTable K V) : Bool := t.elements_count_ == 0

/-- The capacity `hash_map_.size()`. -/
def HashTable.capacity (t : HashTable K V) : Nat := t.hash_map_.length

/-- The member `clear()` (lines 74-78). -/
def HashTable.clear (t : HashTable K V) : HashTable K V :=
  { hash_map_ := resize t.hash_map_ MIN_SIZE default
    is_empty_ := resize t.is_empty_ MIN_SIZE true
    elements_count_ := 0 }

/-- The `while` loop of `Find` (lines 89-94), run for at most `fuel` tests of
its condition, starting at `index`. -/
def FindLoop (KeyEqual : K → K → Bool) (t : HashTable K V) (key : K) :
    Nat → Nat → Except Fault Nat
  | 0, _ => .error .diverges
  | fuel + 1, index =>
    match t.is_empty_[index]? with
    | none => .error .undefined
    | some true => .ok index
    | some false =>
      match t.hash_map_[index]? with
      | none => .error .undefined
      | some p =>
        if KeyEqual key p.1 then .ok index
        else FindLoop KeyEqual t key fuel
          (if index + 1 = t.hash_map_.length then 0 else index + 1)

/-- The member `Find` (lines 87-96). The loop is given `hash_map_.size()` tests:
the walk is cyclic with that period, so a walk that has not stopped by then
never stops (`FindLoop_diverges_of_capacity`). -/
def Find (Hash : K → Nat) (KeyEqual : K → K → Bool) (t : HashTable K V) (key : K) :
    Except Fault Nat :=
  if t.hash_map_.length = 0 then .error .undefined
  else FindLoop KeyEqual t key t.hash_map_.length (Hash key % t.hash_map_.length)

/-- One iteration of the loop of `Rebuild` (lines 101-103), with the
`AddElement` it calls on the new table passed as `add`. -/
def RebuildStep (add : HashTable K V → K → V → Except Fault (HashTable K V))
    (t : HashTable K V) (new_table : HashTable K V) (i : Nat) :
    Except Fault (HashTable K V) :=
  match t.is_empty_[i]? with
  | none => .error .undefined
  | some true => .ok new_table
  | some false =>
    match t.hash_map_[i]? with
    | none => .error .undefined
    | some p => add new_table p.1 p.2

/-- The member `Rebuild` (lines 98-106), with the `AddElement` it calls on the
new table passed as `add`: the loop runs over `i = 0, ..., hash_map_.size() - 1`
and the new table is assigned to `*this`. -/
def RebuildWith (add : HashTable K V → K → V → Except Fault (HashTable K V))
    (t : HashTable K V) : Except Fault (HashTable K V) :=
  (List.range t.hash_map_.length).foldlM (RebuildStep add t)
    (HashTable.sized (t.hash_map_.length * 2))

/-- The member `AddElement(key, val)` (lines 112-120); `fuel` bounds how deep
`AddElement` may be nested inside `Rebuild`. The test
`elements_count_ > hash_map_.size() * MAX_LOAD_FACTOR` is made on doubles in the
source; scaling by `1. / 4` is exact, so it is the integer comparison below. -/
def AddElementFuel (Hash : K → Nat) (KeyEqual : K → K → Bool) :
    Nat → HashTable K V → K → V → Except Fault (HashTable K V)
  | 0, _, _, _ => .error .fuel
  | fuel + 1, t, key, val =>
    match Find Hash KeyEqual t key with
    | .error e => .error e
    | .ok index =>
      match store t.hash_map_ index (key, val), store t.is_empty_ index false with
      | .ok hm, .ok ie =>
        let t1 : HashTable K V :=
          { hash_map_ := hm, is_empty_ := ie, elements_count_ := t.elements_count_ + 1 }
        if t1.hash_map_.length * MAX_LOAD_FACTOR_NUM < t1.elements_count_ * MAX_LOAD_FACTOR_DEN then
          RebuildWith (AddElementFuel Hash KeyEqual fuel) t1
        else .ok t1
      | _, _ => .error .undefined

/-- The member `AddElement`. Three levels of nesting are provided: they are
never used up, and a larger budget gives the same outcome (`AddElement_ne_fuel`,
`AddElementFuel_budget_irrelevant`). -/
def AddElement (Hash : K → Nat) (KeyEqual : K → K → Bool) (t : HashTable K V)
    (key : K) (val : V) : Except Fault (HashTable K V) :=
  AddElementFuel Hash KeyEqual 3 t key val

/-- The member `Rebuild` (lines 98-106). -/
def Rebuild (Hash : K → Nat) (KeyEqual : K → K → Bool) (t : HashTable K V) :
    Except Fault (HashTable K V) :=
  RebuildWith (AddElementFuel Hash KeyEqual 2) t

/-- The constructor `HashTable(const Collection&)` (lines 15-23). -/
def HashTable.ofCollection (Hash : K → Nat) (KeyEqual : K → K → Bool)
    (collection : List (K × V)) : Except Fault (HashTable K V) :=
  collection.foldlM (fun t p => AddElement Hash KeyEqual t p.1 p.2) HashTable.new

/-- What the parameter `const K& key` of `operator[]` is bound to: an object
that is not an element of the table (a variable, a temporary), or a field of an
element of `hash_map_`, as in `t[it->first]` and, when `V` is `K`, in
`t[t.at(a)]`. A field of an element lives in the storage of `hash_map_`. -/
inductive KeyRef (K V : Type) where
  /-- An object outside the table, holding `key`. -/
  | object (key : K)
  /-- The field `hash_map_[slot].first`. -/
  | first (slot : Nat)
  /-- The field `hash_map_[slot].second`, for a table whose `V` is `K`. -/
  | second (slot : Nat) (same : V = K)

/-- The value read through `key` while the table is `t`. -/
def KeyRef.read (t : HashTable K V) : KeyRef K V → Except Fault K
  | .object key => .ok key
  | .first slot =>
    match t.hash_map_[slot]? with
    | none => .error .undefined
    | some p => .ok p.1
  | .second slot same =>
    match t.hash_map_[slot]? with
    | none => .error .undefined
    | some p => .ok (cast same p.2)

/-- The load test of line 117 as `AddElement` makes it when called on `t`:
`Rebuild` runs and its `*this = new_table` replaces the elements of
`hash_map_`. -/
def HashTable.addRebuilds (t : HashTable K V) : Bool :=
  decide (t.hash_map_.length * MAX_LOAD_FACTOR_NUM <
    (t.elements_count_ + 1) * MAX_LOAD_FACTOR_DEN)

/-- The value read through `key` in line 53, after `AddElement` has turned `t`
into `t1`. An object outside the table still holds its key. A field of an
element is read in `t1` when `Rebuild` did not run. When it ran, the copy
assignment gave `hash_map_` twice as many elements: a vector without spare
capacity (the vectors of a table built without `clear()`, in the common
libraries) released the storage that `key` refers to, and the read is
undefined. -/
def KeyRef.readAfterAdd (t t1 : HashTable K V) : KeyRef K V → Except Fault K
  | .object key => .ok key
  | .first slot =>
    if t.addRebuilds then .error .undefined else KeyRef.read t1 (.first slot)
  | .second slot same =>
    if t.addRebuilds then .error .undefined else KeyRef.read t1 (.second slot same)

/-- The member `operator[]` (lines 49-56). The parameter is a reference: it is
read for the first `Find` and for `AddElement`, and again for the `Find` of
line 53. -/
def HashTable.index (Hash : K → Nat) (KeyEqual : K → K → Bool) (t : HashTable K V)
    (key : KeyRef K V) : Except Fault (V × HashTable K V) :=
  match KeyRef.read t key with
  | .error e => .error e
  | .ok k =>
    match Find Hash KeyEqual t k with
    | .error e => .error e
    | .ok index =>
      match t.is_empty_[index]? with
      | none => .error .undefined
      | some true =>
        match AddElement Hash KeyEqual t k default with
        | .error e => .error e
        | .ok t1 =>
          match KeyRef.readAfterAdd t t1 key with
          | .error e => .error e
          | .ok k1 =>
            match Find Hash KeyEqual t1 k1 with
            | .error e => .error e
            | .ok j =>
              match t1.hash_map_[j]? with
              | none => .error .undefined
              | some p => .ok (p.2, t1)
      | some false =>
        match t.hash_map_[index]? with
        | none => .error .undefined
        | some p => .ok (p.2, t)

/-- The member `at` (lines 58-64). -/
def HashTable.at (Hash : K → Nat) (KeyEqual : K → K → Bool) (t : HashTable K V)
    (key : K) : Except Fault (V × HashTable K V) :=
  match Find Hash KeyEqual t key with
  | .error e => .error e
  | .ok index =>
    match t.is_empty_[index]? with
    | none => .error .undefined
    | some true => .error .exception
    | some false =>
      match t.hash_map_[index]? with
      | none => .error .undefined
      | some p => .ok (p.2, t)

/-- The member `insert` (lines 213-220); the iterator is its slot index. -/
def HashTable.insert (Hash : K → Nat) (KeyEqual : K → K → Bool) (t : HashTable K V)
    (pair : K × V) : Except Fault ((Nat × Bool) × HashTable K V) :=
  match Find Hash KeyEqual t pair.1 with
  | .error e => .error e
  | .ok index =>
    match t.is_empty_[index]? with
    | none => .error .undefined
    | some true =>
      match AddElement Hash KeyEqual t pair.1 pair.2 with
      | .error e => .error e
      | .ok t1 =>
        match Find Hash KeyEqual t1 pair.1 with
        | .error e => .error e
        | .ok j => .ok ((j, true), t1)
    | some false => .ok ((index, false), t)

/-- The member `emplace` (lines 222-226), for the two-argument form that
builds the pair from a key and a value. -/
def HashTable.emplace (Hash : K → Nat) (KeyEqual : K → K → Bool) (t : HashTable K V)
    (key : K) (val : V) : Except Fault ((Nat × Bool) × HashTable K V) :=
  HashTable.insert Hash KeyEqual t (key, val)

/-- The loop of `begin` (lines 192-196), run for at most `fuel` tests of its
condition, starting at `index`; the result is the index of the iterator. -/
def HashTable.beginLoop (t : HashTable K V) : Nat → Nat → Except Fault Nat
  | 0, _ => .error .diverges
  | fuel + 1, index =>
    if index < t.hash_map_.length then
      match t.is_empty_[index]? with
      | none => .error .undefined
      | some false => .ok index
      | some true => HashTable.beginLoop t fuel (index + 1)
    else .ok t.hash_map_.length

/-- The member `end` (lines 179-181). -/
def HashTable.end_ (t : HashTable K V) : Nat := t.hash_map_.length

/-- The member `begin` (lines 191-198); the loop makes at most
`hash_map_.size() + 1` tests. -/
def HashTable.begin_ (t : HashTable K V) : Except Fault Nat :=
  HashTable.beginLoop t (t.hash_map_.length + 1) 0

/-- The `do ... while` loop of `Iterator::operator++` (lines 129-131), run for
at most `fuel` rounds, starting at `index`. -/
def HashTable.nextLoop (t : HashTable K V) : Nat → Nat → Except Fault Nat
  | 0, _ => .error .diverges
  | fuel + 1, index =>
    if index + 1 ≠ t.hash_map_.length then
      match t.is_empty_[index + 1]? with
      | none => .error .undefined
      | some true => HashTable.nextLoop t fuel (index + 1)
      | some false => .ok (index + 1)
    else .ok (index + 1)

/-- The member `Iterator::operator++` (lines 128-133) on an iterator of `t` at
`index`; an iterator inside the table needs at most `hash_map_.size()` rounds. -/
def HashTable.next (t : HashTable K V) (index : Nat) : Except Fault Nat :=
  HashTable.nextLoop t t.hash_map_.length index

/-- The member `Iterator::operator*` (lines 137-139). -/
def HashTable.deref (t : HashTable K V) (index : Nat) : Except Fault (K × V) :=
  match t.hash_map_[index]? with
  | none => .error .undefined
  | some p => .ok p

/-- The client loop `for (it = ...; it != t.end(); ++it) out.push_back(*it)`,
run for at most `fuel` tests of its condition. -/
def HashTable.iterateLoop (t : HashTable K V) : Nat → Nat → Except Fault (List (K × V))
  | 0, _ => .error .diverges
  | fuel + 1, index =>
    if index ≠ t.end_ then
      match t.deref index with
      | .error e => .error e
      | .ok p =>
        match t.next index with
        | .error e => .error e
        | .ok j =>
          match HashTable.iterateLoop t fuel j with
          | .error e => .error e
          | .ok rest => .ok (p :: rest)
    else .ok []

/-- The pairs seen by `for (it = t.begin(); it != t.end(); ++it)`, in the
order of the visit. -/
def HashTable.iterate (t : HashTable K V) : Except Fault (List (K × V)) :=
  match t.begin_ with
  | .error e => .error e
  | .ok b => HashTable.iterateLoop t (t.hash_map_.length + 1) b

/-- The client loop `for (it = ...; it != t.end(); ++it)`, run for at most
`fuel` tests of its condition: the indices that the iterator holds when the
body runs. -/
def HashTable.visitLoop (t : HashTable K V) : Nat → Nat → Except Fault (List Nat)
  | 0, _ => .error .diverges
  | fuel + 1, index =>
    if index ≠ t.end_ then
      match t.next index with
      | .error e => .error e
      | .ok j =>
        match HashTable.visitLoop t fuel j with
        | .error e => .error e
        | .ok rest => .ok (index :: rest)
    else .ok []

/-- The indices visited by `for (it = t.begin(); it != t.end(); ++it)`, in the
order of the visit. -/
def HashTable.visit (t : HashTable K V) : Except Fault (List Nat) :=
  match t.begin_ with
  | .error e => .error e
  | .ok b => HashTable.visitLoop t (t.hash_map_.length + 1) b

/-- The member `find` (lines 183-189); the iterator is its slot index. -/
def HashTable.find (Hash : K → Nat) (KeyEqual : K → K → Bool) (t : HashTable K V)
    (key : K) : Except Fault (Nat × HashTable K V) :=
  match Find Hash KeyEqual t key with
  | .error e => .error e
  | .ok index =>
    match t.is_empty_[index]? with
    | none => .error .undefined
    | some true => .ok (t.end_, t)
    | some false => .ok (index, t)

/-- The move constructor `HashTable(HashTable&& table)` (lines 29-33): the
constructed table and the state in which `table` is left. The two vectors of
the constructed table are empty before the swaps; its counter is assigned. -/
def HashTable.moveConstruct (table : HashTable K V) : HashTable K V × HashTable K V :=
  ({ hash_map_ := table.hash_map_
     is_empty_ := table.is_empty_
     elements_count_ := table.elements_count_ },
   { hash_map_ := []
     is_empty_ := []
     elements_count_ := table.elements_count_ })

/-- The move assignment `operator=(HashTable&& table)` (lines 42-47) on the
table `self`: the state of `self` after the call and the state in which `table`
is left. The vectors are swapped; the counter is assigned, not swapped. -/
def HashTable.moveAssign (self table : HashTable K V) : HashTable K V × HashTable K V :=
  ({ hash_map_ := table.hash_map_
     is_empty_ := table.is_empty_
     elements_count_ := table.elements_count_ },
   { hash_map_ := self.hash_map_
     is_empty_ := self.is_empty_
     elements_count_ := table.elements_count_ })

/-- The indices of the occupied slots, in increasing order. -/
def HashTable.occupiedIndices (t : HashTable K V) : List Nat :=
  (List.range t.hash_map_.length).filter (fun i => t.is_empty_[i]? == some false)

/-- The indices of the occupied slots from `i` on, in increasing order. -/
def HashTable.occupiedFrom (t : HashTable K V) (i : Nat) : List Nat :=
  (List.range' i (t.hash_map_.length - i)).filter (fun j => t.is_empty_[j]? == some false)

/-- Slot `j` is empty or holds a key equal to `key`: the `while` loop of `Find`
stops there. -/
def HashTable.probeStops (KeyEqual : K → K → Bool) (t : HashTable K V) (key : K)
    (j : Nat) : Prop :=
  t.is_empty_[j]? = some true ∨
    (t.is_empty_[j]? = some false ∧ ∃ p, t.hash_map_[j]? = some p ∧ KeyEqual key p.1 = true)

/-- A call of one of the public mutating members. The argument of `operator[]`
is an object outside the table; a call whose argument is a field of an element
leaves the same table whenever it returns (`index_ref_same_table`). -/
inductive Op (K V : Type) where
  | insert (pair : K × V)
  | emplace (key : K) (val : V)
  | index (key : K)
  | clear

/-- The call is `clear()`. -/
def Op.isClear : Op K V → Bool
  | .clear => true
  | _ => false

/-- The pair that the call stores when its key is absent. -/
def Op.write : Op K V → Option (K × V)
  | .insert pair => some pair
  | .emplace key val => some (key, val)
  | .index key => some (key, default)
  | .clear => none

/-- The state after one call. -/
def step (Hash : K → Nat) (KeyEqual : K → K → Bool) (t : HashTable K V) :
    Op K V → Except Fault (HashTable K V)
  | .insert pair =>
    match HashTable.insert Hash KeyEqual t pair with
    | .error e => .error e
    | .ok r => .ok r.2
  | .emplace key val =>
    match HashTable.emplace Hash KeyEqual t key val with
    | .error e => .error e
    | .ok r => .ok r.2
  | .index key =>
    match HashTable.index Hash KeyEqual t (.object key) with
    | .error e => .error e
    | .ok r => .ok r.2
  | .clear => .ok t.clear

/-- The state after a sequence of calls on a table. -/
def runFrom (Hash : K → Nat) (KeyEqual : K → K → Bool) :
    HashTable K V → List (Op K V) → Except Fault (HashTable K V)
  | t, [] => .ok t
  | t, op :: ops =>
    match step Hash KeyEqual t op with
    | .error e => .error e
    | .ok t2 => runFrom Hash KeyEqual t2 ops

/-- The state after a sequence of calls on a default-constructed table. -/
def run (Hash : K → Nat) (KeyEqual : K → K → Bool) (ops : List (Op K V)) :
    Except Fault (HashTable K V) :=
  runFrom Hash KeyEqual HashTable.new ops

/-- The pair written by the first call of the sequence whose key is equal to
`key`, if there is one. -/
def firstPair (KeyEqual : K → K → Bool) (ops : List (Op K V)) (key : K) : Option (K × V) :=
  (ops.filterMap Op.write).find? (fun p => KeyEqual key p.1)

/-- The value written by the first call of the sequence whose key is equal to
`key`, if there is one. -/
def firstWrite (KeyEqual : K → K → Bool) (ops : List (Op K V)) (key : K) : Option V :=
  (firstPair KeyEqual ops key).map (fun p => p.2)

/-- The pairs held by the occupied slots, in increasing slot order. -/
def HashTable.entries (t : HashTable K V) : List (K × V) :=
  ((t.is_empty_.zip t.hash_map_).filter (fun e => !e.1)).map (fun e => e.2)

/-- The pairs held by the occupied slots of index at least `i`, in increasing
slot order. -/
def HashTable.entriesFrom (t : HashTable K V) (i : Nat) : List (K × V) :=
  (((t.is_empty_.zip t.hash_map_).drop i).filter (fun e => !e.1)).map (fun e => e.2)

/-- Some occupied slot holds a key equal to `key`. -/
def HashTable.contains (KeyEqual : K → K → Bool) (t : HashTable K V) (key : K) : Bool :=
  t.entries.any (fun p => KeyEqual key p.1)

/-- Some occupied slot holds a key equal to `key` together with the value `val`. -/
def HashTable.Stored (KeyEqual : K → K → Bool) (t : HashTable K V) (key : K) (val : V) :
    Prop :=
  ∃ p ∈ t.entries, KeyEqual key p.1 = true ∧ p.2 = val

end Operations

/-- The requirements on the template parameters: `KeyEqual` is an equivalence
and equal keys have equal hashes. -/
structure LawfulHash {K : Type} (Hash : K → Nat) (KeyEqual : K → K → Bool) : Prop where
  refl : ∀ a, KeyEqual a a = true
  symm : ∀ a b, KeyEqual a b = true → KeyEqual b a = true
  trans : ∀ a b c, KeyEqual a b = true → KeyEqual b c = true → KeyEqual a c = true
  hash_eq : ∀ a b, KeyEqual a b = true → Hash a = Hash b

/-- The state after the three assignments of `AddElement` (lines 114-116) at
slot `i`. -/
def setSlot {K V : Type} (t : HashTable K V) (i : Nat) (key : K) (val : V) : HashTable K V :=
  { hash_map_ := t.hash_map_.set i (key, val)
    is_empty_ := t.is_empty_.set i false
    elements_count_ := t.elements_count_ + 1 }

/-- The data-model invariants of a table: the two arrays have one length, at
least `MIN_SIZE`; the counter is the number of occupied slots and leaves a slot
empty; every stored key is found by `Find` in the slot that stores it. -/
structure Wf {K V : Type} (Hash : K → Nat) (KeyEqual : K → K → Bool) (t : HashTable K V) :
    Prop where
  len_eq : t.hash_map_.length = t.is_empty_.length
  min_size : MIN_SIZE ≤ t.hash_map_.length
  count_eq : t.elements_count_ = t.is_empty_.count false
  room : t.elements_count_ < t.hash_map_.length
  probe : ∀ (i : Nat) (p : K × V), t.is_empty_[i]? = some false →
    t.hash_map_[i]? = some p → Find Hash KeyEqual t p.1 = .ok i

/-- The invariant of the tables reached through the public operations: `Wf`
and the load-factor bound. -/
def Inv {K V : Type} (Hash : K → Nat) (KeyEqual : K → K → Bool) (t : HashTable K V) : Prop :=
  Wf Hash KeyEqual t ∧
    t.elements_count_ * MAX_LOAD_FACTOR_DEN ≤ t.hash_map_.length * MAX_LOAD_FACTOR_NUM

/-- The condition of the `while` loop of `Find` holds at slot `j`: the slot is
occupied and its key is not equal to `key`, so the probe moves on. -/
def HashTable.probeContinues (KeyEqual : K → K → Bool) (t : HashTable K V) (key : K)
    (j : Nat) : Prop :=
  t.is_empty_[j]? = some false ∧ ∃ p, t.hash_map_[j]? = some p ∧ KeyEqual key p.1 = false

/-- On tables whose arrays have one length, at least `L0`, whose counter is at
least the number of occupied slots and below `B`, the function `add` does not
exhaust a nesting budget and returns a table of the same kind whose counter
has grown by at most one. -/
def AddWithin (add : HashTable K V → K → V → Except Fault (HashTable K V)) (L0 B : Nat) :
    Prop :=
  ∀ (s : HashTable K V) (k : K) (v : V), s.hash_map_.length = s.is_empty_.length →
    L0 ≤ s.hash_map_.length → s.is_empty_.count false ≤ s.elements_count_ →
    s.elements_count_ + 1 ≤ B →
    (∃ e, e ≠ Fault.fuel ∧ add s k v = .error e) ∨
      ∃ s2, add s k v = .ok s2 ∧ s2.hash_map_.length = s2.is_empty_.length ∧
        L0 ≤ s2.hash_map_.length ∧ s2.is_empty_.count false ≤ s2.elements_count_ ∧
        s2.elements_count_ ≤ s.elements_count_ + 1

/-- The identity hash on `Nat` keys. -/
def natHash : Nat → Nat := fun k => k

/-- The equality of `Nat` keys. -/
def natEq : Nat → Nat → Bool := fun a b => a == b

/-- Three calls whose keys all hash to slot 1 of a fresh table. -/
def ops3 : List (Op Nat Nat) := [.insert (1, 10), .insert (13, 20), .insert (25, 30)]

/-- The table after `ops3`. -/
def table3 : HashTable Nat Nat :=
  { hash_map_ := [(0, 0), (1, 10), (13, 20), (25, 30), (0, 0), (0, 0), (0, 0), (0, 0),
      (0, 0), (0, 0), (0, 0), (0, 0)]
    is_empty_ := [true, false, false, false, true, true, true, true, true, true, true, true]
    elements_count_ := 3 }

/-- The table after `insert((1, 10))` and `clear()` on a fresh table. -/
def clearedTable : HashTable Nat Nat :=
  { hash_map_ := [(0, 0), (1, 10), (0, 0), (0, 0), (0, 0), (0, 0), (0, 0), (0, 0),
      (0, 0), (0, 0), (0, 0), (0, 0)]
    is_empty_ := [true, false, true, true, true, true, true, true, true, true, true, true]
    elements_count_ := 0 }

/-- The table built by the collection constructor from `[(1, 10), (1, 20)]`. -/
def bulkTable : HashTable Nat Nat :=
  { hash_map_ := [(0, 0), (1, 20), (0, 0), (0, 0), (0, 0), (0, 0), (0, 0), (0, 0),
      (0, 0), (0, 0), (0, 0), (0, 0)]
    is_empty_ := [true, false, true, true, true, true, true, true, true, true, true, true]
    elements_count_ := 2 }

/-- The table after `insert((1, 10))` and `insert((1, 20))` on a fresh table. -/
def insertedTable : HashTable Nat Nat :=
  { hash_map_ := [(0, 0), (1, 10), (0, 0), (0, 0), (0, 0), (0, 0), (0, 0), (0, 0),
      (0, 0), (0, 0), (0, 0), (0, 0)]
    is_empty_ := [true, false, true, true, true, true, true, true, true, true, true, true]
    elements_count_ := 1 }

/-- Twelve insertions of the keys 0 to 11, with a `clear()` after every third. -/
def opsFill : List (Op Nat Nat) :=
  [.insert (0, 0), .insert (1, 1), .insert (2, 2), .clear,
   .insert (3, 3), .insert (4, 4), .insert (5, 5), .clear,
   .insert (6, 6), .insert (7, 7), .insert (8, 8), .clear,
   .insert (9, 9), .insert (10, 10), .insert (11, 11)]

/-- The table after `opsFill`: every slot is marked occupied. -/
def fullTable : HashTable Nat Nat :=
  { hash_map_ := [(0, 0), (1, 1), (2, 2), (3, 3), (4, 4), (5, 5), (6, 6), (7, 7),
      (8, 8), (9, 9), (10, 10), (11, 11)]
    is_empty_ := [false, false, false, false, false, false, false, false, false, false,
      false, false]
    elements_count_ := 3 }

/-- The capacity is `MIN_SIZE` doubled some number of times, and it was doubled
only when the count made it necessary. -/
def CapInv {K V : Type} (t : HashTable K V) : Prop :=
  (∃ n : Nat, t.hash_map_.length = MIN_SIZE * 2 ^ n) ∧
    (t.hash_map_.length = MIN_SIZE ∨ t.hash_map_.length < 8 * t.elements_count_)

/-- The table after `ops3` and `insert((2, 40))`: the fourth key has doubled the
capacity and every pair has been placed again. -/
def table4 : HashTable Nat Nat :=
  { hash_map_ := [(0, 0), (1, 10), (25, 30), (2, 40), (0, 0), (0, 0), (0, 0), (0, 0),
      (0, 0), (0, 0), (0, 0), (0, 0), (0, 0), (13, 20), (0, 0), (0, 0), (0, 0), (0, 0),
      (0, 0), (0, 0), (0, 0), (0, 0), (0, 0), (0, 0)]
    is_empty_ := [true, false, false, false, true, true, true, true, true, true, true, true,
      true, false, true, true, true, true, true, true, true, true, true, true]
    elements_count_ := 4 }

/-- The state in which the move constructor leaves `insertedTable`. -/
def movedFromTable : HashTable Nat Nat :=
  { hash_map_ := [], is_empty_ := [], elements_count_ := 1 }

/-- The state in which move-assigning `insertedTable` to a fresh table leaves
`insertedTable`: the storage of the fresh table with the count 1. -/
def swappedFromTable : HashTable Nat Nat :=
  { hash_map_ := [(0, 0), (0, 0), (0, 0), (0, 0), (0, 0), (0, 0), (0, 0), (0, 0),
      (0, 0), (0, 0), (0, 0), (0, 0)]
    is_empty_ := [true, true, true, true, true, true, true, true, true, true, true, true]
    elements_count_ := 1 }

/-- Three insertions after which keys 1, 2 and 3 hold the values 100, 200 and
300. -/
def opsAlias : List (Op Nat Nat) := [.insert (1, 100), .insert (2, 200), .insert (3, 300)]

/-- The table after `opsAlias`: the value 100 of key 1 is in slot 1. -/
def tableAlias : HashTable Nat Nat :=
  { hash_map_ := [(0, 0), (1, 100), (2, 200), (3, 300), (0, 0), (0, 0), (0, 0), (0, 0),
      (0, 0), (0, 0), (0, 0), (0, 0)]
    is_empty_ := [true, false, false, false, true, true, true, true, true, true, true, true]
    elements_count_ := 3 }

/-- The table after `AddElement(100, 0)` on `tableAlias`: the fourth key has
doubled the capacity. -/
def tableAliasGrown : HashTable Nat Nat :=
  { hash_map_ := [(0, 0), (1, 100), (2, 200), (3, 300), (100, 0), (0, 0), (0, 0), (0, 0),
      (0, 0), (0, 0), (0, 0), (0, 0), (0, 0), (0, 0), (0, 0), (0, 0), (0, 0), (0, 0),
      (0, 0), (0, 0), (0, 0), (0, 0), (0, 0), (0, 0)]
    is_empty_ := [true, false, false, false, false, true, true, true, true, true, true, true,
      true, true, true, true, true, true, true, true, true, true, true, true]
    elements_count_ := 4 }

section ProbeLemmas

variable {K V : Type} {Hash : K → Nat} {KeyEqual : K → K → Bool}

theorem mem_entries_iff (t : HashTable K V) (p : K × V) :
    p ∈ t.entries ↔
      ∃ i : Nat, t.is_empty_[i]? = some false ∧ t.hash_map_[i]? = some p := by
  unfold HashTable.entries
  constructor
  · intro h
    obtain ⟨⟨b, q⟩, hq, rfl⟩ := List.mem_map.1 h
    obtain ⟨hz, hb⟩ := List.mem_filter.1 hq
    obtain ⟨i, hi⟩ := List.mem_iff_getElem?.1 hz
    obtain ⟨h1, h2⟩ := List.getElem?_zip_eq_some.1 hi
    simp at hb
    subst hb
    exact ⟨i, h1, h2⟩
  · rintro ⟨i, h1, h2⟩
    exact List.mem_map.2 ⟨(false, p), List.mem_filter.2
      ⟨List.mem_iff_getElem?.2 ⟨i, List.getElem?_zip_eq_some.2 ⟨h1, h2⟩⟩, by simp⟩, rfl⟩

theorem stored_iff (t : HashTable K V) (k : K) (v : V) :
    t.Stored KeyEqual k v ↔
      ∃ (i : Nat) (k2 : K), t.is_empty_[i]? = some false ∧ t.hash_map_[i]? = some (k2, v) ∧
        KeyEqual k k2 = true := by
  unfold HashTable.Stored
  constructor
  · rintro ⟨⟨k2, v2⟩, hp, hk, rfl⟩
    obtain ⟨i, h1, h2⟩ := (mem_entries_iff t _).1 hp
    exact ⟨i, k2, h1, h2, hk⟩
  · rintro ⟨i, k2, h1, h2, hk⟩
    exact ⟨(k2, v), (mem_entries_iff t _).2 ⟨i, h1, h2⟩, hk, rfl⟩

theorem contains_false_iff (t : HashTable K V) (k : K) :
    t.contains KeyEqual k = false ↔
      ∀ (i : Nat) (p : K × V), t.is_empty_[i]? = some false → t.hash_map_[i]? = some p →
        KeyEqual k p.1 = false := by
  unfold HashTable.contains
  rw [List.any_eq_false]
  constructor
  · intro h i p h1 h2
    have := h p ((mem_entries_iff t p).2 ⟨i, h1, h2⟩)
    simpa using this
  · intro h p hp
    obtain ⟨i, h1, h2⟩ := (mem_entries_iff t p).1 hp
    simp [h i p h1 h2]

theorem contains_true_iff (t : HashTable K V) (k : K) :
    t.contains KeyEqual k = true ↔ ∃ v, t.Stored KeyEqual k v := by
  unfold HashTable.contains HashTable.Stored
  rw [List.any_eq_true]
  constructor
  · rintro ⟨p, hp, hk⟩
    exact ⟨p.2, p, hp, hk, rfl⟩
  · rintro ⟨v, p, hp, hk, _⟩
    exact ⟨p, hp, hk⟩

/-- A successful probe stops inside the table, on an empty slot or on an
occupied slot whose key is equal to the one sought. -/
theorem FindLoop_ok_spec (t : HashTable K V) (k : K) :
    ∀ (fuel idx r : Nat), FindLoop KeyEqual t k fuel idx = .ok r →
      t.is_empty_[r]? = some true ∨
        (t.is_empty_[r]? = some false ∧
          ∃ p, t.hash_map_[r]? = some p ∧ KeyEqual k p.1 = true) := by
  intro fuel
  induction fuel with
  | zero => intro idx r h; simp [FindLoop] at h
  | succ f ih =>
    intro idx r h
    unfold FindLoop at h
    split at h
    · simp at h
    · rename_i he
      cases h
      exact Or.inl he
    · rename_i he
      split at h
      · simp at h
      · rename_i p hp
        split at h
        · rename_i hk
          cases h
          exact Or.inr ⟨he, p, hp, hk⟩
        · exact ih _ _ h

/-- More tests never change the outcome of a probe that stopped. -/
theorem FindLoop_mono (t : HashTable K V) (k : K) :
    ∀ (fuel idx r extra : Nat), FindLoop KeyEqual t k fuel idx = .ok r →
      FindLoop KeyEqual t k (fuel + extra) idx = .ok r := by
  intro fuel
  induction fuel with
  | zero => intro idx r extra h; simp [FindLoop] at h
  | succ f ih =>
    intro idx r extra h
    rw [show f + 1 + extra = (f + extra) + 1 by omega]
    rw [FindLoop] at h ⊢
    cases he : t.is_empty_[idx]? with
    | none => simp [he] at h
    | some b =>
      cases b with
      | true => simpa [he] using h
      | false =>
        cases hp : t.hash_map_[idx]? with
        | none => simp [he, hp] at h
        | some p =>
          by_cases hk : KeyEqual k p.1 = true
          · simpa [he, hp, hk] using h
          · simp only [he, hp, hk, if_false] at h ⊢
            exact ih _ _ _ h

theorem FindLoop_empty (t : HashTable K V) (k : K) (f idx : Nat)
    (h : t.is_empty_[idx]? = some true) :
    FindLoop KeyEqual t k (f + 1) idx = .ok idx := by
  rw [FindLoop]
  simp [h]

/-- One test of the loop condition inside the table: the probe stops at the
current index or moves to the next one, cyclically. -/
theorem FindLoop_step (KeyEqual : K → K → Bool) (t : HashTable K V) (k : K)
    (hlen : t.hash_map_.length = t.is_empty_.length) (f idx : Nat)
    (hidx : idx < t.hash_map_.length) :
    FindLoop KeyEqual t k (f + 1) idx = .ok idx ∨
      FindLoop KeyEqual t k (f + 1) idx =
        FindLoop KeyEqual t k f (if idx + 1 = t.hash_map_.length then 0 else idx + 1) := by
  rw [FindLoop]
  have h1 : t.is_empty_[idx]? = some t.is_empty_[idx] :=
    List.getElem?_eq_getElem (by omega)
  have h2 : t.hash_map_[idx]? = some t.hash_map_[idx] :=
    List.getElem?_eq_getElem hidx
  rw [h1, h2]
  cases t.is_empty_[idx] with
  | true => exact Or.inl rfl
  | false =>
    by_cases hk : KeyEqual k t.hash_map_[idx].1 = true
    · simp [hk]
    · simp [hk]

theorem FindLoop_reach_forward (KeyEqual : K → K → Bool) (t : HashTable K V) (k : K)
    (hlen : t.hash_map_.length = t.is_empty_.length) :
    ∀ (d idx fuel : Nat), idx + d < t.hash_map_.length →
      t.is_empty_[idx + d]? = some true → d < fuel →
      ∃ r, FindLoop KeyEqual t k fuel idx = .ok r := by
  intro d
  induction d with
  | zero =>
    intro idx fuel _ he hf
    obtain ⟨f, rfl⟩ : ∃ f, fuel = f + 1 := ⟨fuel - 1, by omega⟩
    exact ⟨idx, FindLoop_empty t k f idx he⟩
  | succ d ih =>
    intro idx fuel hd he hf
    obtain ⟨f, rfl⟩ : ∃ f, fuel = f + 1 := ⟨fuel - 1, by omega⟩
    rcases FindLoop_step KeyEqual t k hlen f idx (by omega) with h | h
    · exact ⟨idx, h⟩
    · rw [h, if_neg (by omega)]
      exact ih (idx + 1) f (by omega) (by rw [← he]; congr 1; omega) (by omega)

theorem FindLoop_reach_wrap (t : HashTable K V) (k : K)
    (hlen : t.hash_map_.length = t.is_empty_.length) (fuel0 r0 : Nat)
    (h0 : FindLoop KeyEqual t k fuel0 0 = .ok r0) :
    ∀ (m idx fuel : Nat), idx + m = t.hash_map_.length → 0 < m → m + fuel0 ≤ fuel →
      ∃ r, FindLoop KeyEqual t k fuel idx = .ok r := by
  intro m
  induction m with
  | zero => intro idx fuel _ hm; omega
  | succ m ih =>
    intro idx fuel hidx _ hf
    obtain ⟨f, rfl⟩ : ∃ f, fuel = f + 1 := ⟨fuel - 1, by omega⟩
    rcases FindLoop_step KeyEqual t k hlen f idx (by omega) with h | h
    · exact ⟨idx, h⟩
    · rw [h]
      by_cases hm : m = 0
      · rw [if_pos (by omega)]
        refine ⟨r0, ?_⟩
        have := FindLoop_mono t k fuel0 0 r0 (f - fuel0) h0
        rwa [show fuel0 + (f - fuel0) = f by omega] at this
      · rw [if_neg (by omega)]
        exact ih (idx + 1) f (by omega) (by omega) (by omega)

/-- With one empty slot in a table whose two arrays have the same length, the
probe started anywhere inside the table stops within `capacity` tests. -/
theorem FindLoop_total (KeyEqual : K → K → Bool) (t : HashTable K V) (k : K)
    (hlen : t.hash_map_.length = t.is_empty_.length) (idx e : Nat)
    (hidx : idx < t.hash_map_.length) (he : t.is_empty_[e]? = some true) :
    ∃ r, FindLoop KeyEqual t k t.hash_map_.length idx = .ok r := by
  have hel : e < t.hash_map_.length := by
    rw [hlen]
    exact (List.getElem?_eq_some.1 he).1
  by_cases hle : idx ≤ e
  · exact FindLoop_reach_forward KeyEqual t k hlen (e - idx) idx _ (by omega)
      (by rw [← he]; congr 1; omega) (by omega)
  · obtain ⟨r0, h0⟩ := FindLoop_reach_forward KeyEqual t k hlen e 0 (e + 1)
      (by omega) (by rw [← he]; congr 1; omega) (by omega)
    exact FindLoop_reach_wrap t k hlen (e + 1) r0 h0 (t.hash_map_.length - idx) idx _
      (by omega) (by omega) (by omega)

theorem FindLoop_congr_key (t : HashTable K V) (k k2 : K)
    (h : ∀ x, KeyEqual k x = KeyEqual k2 x) :
    ∀ (fuel idx : Nat), FindLoop KeyEqual t k fuel idx = FindLoop KeyEqual t k2 fuel idx := by
  intro fuel
  induction fuel with
  | zero => intro idx; rfl
  | succ f ih =>
    intro idx
    rw [FindLoop, FindLoop]
    simp only [h, ih]

/-- Writing into a slot that was empty does not disturb a probe that stopped
elsewhere. -/
theorem FindLoop_set_other (t t2 : HashTable K V) (k : K) (i : Nat)
    (hlen2 : t2.hash_map_.length = t.hash_map_.length)
    (hae : ∀ j, j ≠ i → t2.is_empty_[j]? = t.is_empty_[j]?)
    (hah : ∀ j, j ≠ i → t2.hash_map_[j]? = t.hash_map_[j]?)
    (hi : t.is_empty_[i]? = some true) :
    ∀ (fuel idx r : Nat), FindLoop KeyEqual t k fuel idx = .ok r → r ≠ i →
      FindLoop KeyEqual t2 k fuel idx = .ok r := by
  intro fuel
  induction fuel with
  | zero => intro idx r h; simp [FindLoop] at h
  | succ f ih =>
    intro idx r h hr
    by_cases hidx : idx = i
    · subst hidx
      rw [FindLoop_empty t k f idx hi] at h
      cases h
      exact absurd rfl hr
    · rw [FindLoop] at h ⊢
      rw [hae idx hidx, hah idx hidx, hlen2]
      cases he : t.is_empty_[idx]? with
      | none => simp [he] at h
      | some b =>
        cases b with
        | true => simpa [he] using h
        | false =>
          cases hp : t.hash_map_[idx]? with
          | none => simp [he, hp] at h
          | some p =>
            by_cases hk : KeyEqual k p.1 = true
            · simpa [he, hp, hk] using h
            · simp only [he, hp, hk, if_false] at h ⊢
              exact ih _ _ h hr

/-- Writing an equal key into the slot where the probe for that key stopped
makes the probe stop there again. -/
theorem FindLoop_set_self (t t2 : HashTable K V) (k : K) (i : Nat) (p : K × V)
    (hlen2 : t2.hash_map_.length = t.hash_map_.length)
    (hae : ∀ j, j ≠ i → t2.is_empty_[j]? = t.is_empty_[j]?)
    (hah : ∀ j, j ≠ i → t2.hash_map_[j]? = t.hash_map_[j]?)
    (hie : t2.is_empty_[i]? = some false) (hih : t2.hash_map_[i]? = some p)
    (hkp : KeyEqual k p.1 = true) :
    ∀ (fuel idx : Nat), FindLoop KeyEqual t k fuel idx = .ok i →
      FindLoop KeyEqual t2 k fuel idx = .ok i := by
  intro fuel
  induction fuel with
  | zero => intro idx h; simp [FindLoop] at h
  | succ f ih =>
    intro idx h
    by_cases hidx : idx = i
    · subst hidx
      rw [FindLoop]
      simp [hie, hih, hkp]
    · rw [FindLoop] at h ⊢
      rw [hae idx hidx, hah idx hidx, hlen2]
      cases he : t.is_empty_[idx]? with
      | none => simp [he] at h
      | some b =>
        cases b with
        | true =>
          simp [he] at h
          exact absurd h hidx
        | false =>
          cases hp : t.hash_map_[idx]? with
          | none => simp [he, hp] at h
          | some q =>
            by_cases hk : KeyEqual k q.1 = true
            · simp [he, hp, hk] at h
              exact absurd h hidx
            · simp only [he, hp, hk, if_false] at h ⊢
              exact ih _ h

/-- When the loop condition holds at every slot, the probe never stops,
whatever the number of tests it is given. -/
theorem FindLoop_diverges_of_all_continue (t : HashTable K V) (k : K)
    (hall : ∀ j, j < t.hash_map_.length → t.probeContinues KeyEqual k j) :
    ∀ (fuel idx : Nat), idx < t.hash_map_.length →
      FindLoop KeyEqual t k fuel idx = .error .diverges := by
  intro fuel
  induction fuel with
  | zero => intro idx _; rfl
  | succ f ih =>
    intro idx hidx
    obtain ⟨h1, p, h2, hk⟩ := hall idx hidx
    rw [FindLoop]
    simp only [h1, h2, hk, Bool.false_eq_true, if_false]
    apply ih
    split <;> omega

/-- One test of the loop condition: the probe moves on when the condition
holds, and otherwise ends without diverging. -/
theorem FindLoop_step_cases (KeyEqual : K → K → Bool) (t : HashTable K V) (k : K)
    (f idx : Nat) :
    (t.probeContinues KeyEqual k idx ∧
        FindLoop KeyEqual t k (f + 1) idx =
          FindLoop KeyEqual t k f (if idx + 1 = t.hash_map_.length then 0 else idx + 1)) ∨
      (¬ t.probeContinues KeyEqual k idx ∧
        FindLoop KeyEqual t k (f + 1) idx ≠ .error .diverges ∧
        ∀ f2, FindLoop KeyEqual t k (f2 + 1) idx = FindLoop KeyEqual t k (f + 1) idx) := by
  unfold HashTable.probeContinues
  cases he : t.is_empty_[idx]? with
  | none => right; simp [FindLoop, he]
  | some b =>
    cases b with
    | true => right; simp [FindLoop, he]
    | false =>
      cases hp : t.hash_map_[idx]? with
      | none => right; simp [FindLoop, he, hp]
      | some p =>
        cases hk : KeyEqual k p.1 with
        | true => right; simp [FindLoop, he, hp, hk]
        | false => left; simp [FindLoop, he, hp, hk]

theorem FindLoop_mono_of_not_diverges (t : HashTable K V) (k : K) :
    ∀ (fuel idx extra : Nat), FindLoop KeyEqual t k fuel idx ≠ .error .diverges →
      FindLoop KeyEqual t k (fuel + extra) idx ≠ .error .diverges := by
  intro fuel
  induction fuel with
  | zero => intro idx extra h; exact absurd rfl h
  | succ f ih =>
    intro idx extra h
    rw [show f + 1 + extra = (f + extra) + 1 by omega]
    rcases FindLoop_step_cases KeyEqual t k f idx with ⟨_, h1⟩ | ⟨_, h1, h2⟩
    · rcases FindLoop_step_cases KeyEqual t k (f + extra) idx with ⟨_, h3⟩ | ⟨_, h3, _⟩
      · rw [h3]
        rw [h1] at h
        exact ih _ _ h
      · exact h3
    · rw [h2 (f + extra)]
      exact h1

theorem FindLoop_halts_forward (KeyEqual : K → K → Bool) (t : HashTable K V) (k : K) :
    ∀ (d idx fuel : Nat), idx + d < t.hash_map_.length →
      ¬ t.probeContinues KeyEqual k (idx + d) → d < fuel →
      FindLoop KeyEqual t k fuel idx ≠ .error .diverges := by
  intro d
  induction d with
  | zero =>
    intro idx fuel _ he hf
    obtain ⟨f, rfl⟩ : ∃ f, fuel = f + 1 := ⟨fuel - 1, by omega⟩
    rcases FindLoop_step_cases KeyEqual t k f idx with ⟨h1, _⟩ | ⟨_, h1, _⟩
    · exact absurd h1 he
    · exact h1
  | succ d ih =>
    intro idx fuel hd he hf
    obtain ⟨f, rfl⟩ : ∃ f, fuel = f + 1 := ⟨fuel - 1, by omega⟩
    rcases FindLoop_step_cases KeyEqual t k f idx with ⟨_, h1⟩ | ⟨_, h1, _⟩
    · rw [h1, if_neg (by omega)]
      exact ih (idx + 1) f (by omega) (by rw [show idx + 1 + d = idx + (d + 1) by omega]; exact he)
        (by omega)
    · exact h1

theorem FindLoop_halts_wrap (KeyEqual : K → K → Bool) (t : HashTable K V) (k : K)
    (fuel0 : Nat) (h0 : FindLoop KeyEqual t k fuel0 0 ≠ .error .diverges) :
    ∀ (m idx fuel : Nat), idx + m = t.hash_map_.length → 0 < m → m + fuel0 ≤ fuel →
      FindLoop KeyEqual t k fuel idx ≠ .error .diverges := by
  intro m
  induction m with
  | zero => intro idx fuel _ hm; omega
  | succ m ih =>
    intro idx fuel hidx _ hf
    obtain ⟨f, rfl⟩ : ∃ f, fuel = f + 1 := ⟨fuel - 1, by omega⟩
    rcases FindLoop_step_cases KeyEqual t k f idx with ⟨_, h1⟩ | ⟨_, h1, _⟩
    · rw [h1]
      by_cases hm : m = 0
      · rw [if_pos (by omega)]
        have := FindLoop_mono_of_not_diverges t k fuel0 0 (f - fuel0) h0
        rwa [show fuel0 + (f - fuel0) = f by omega] at this
      · rw [if_neg (by omega)]
        exact ih (idx + 1) f (by omega) (by omega) (by omega)
    · exact h1

/-- The bound on the tests of `Find` loses nothing: a probe that has not
stopped after `capacity` tests passes every slot of the table, and so never
stops, whatever the number of tests it is given. -/
theorem FindLoop_diverges_of_capacity (KeyEqual : K → K → Bool) (t : HashTable K V) (k : K)
    (idx : Nat) (hidx : idx < t.hash_map_.length)
    (h : FindLoop KeyEqual t k t.hash_map_.length idx = .error .diverges) :
    ∀ (fuel idx2 : Nat), idx2 < t.hash_map_.length →
      FindLoop KeyEqual t k fuel idx2 = .error .diverges := by
  apply FindLoop_diverges_of_all_continue
  intro e hel
  by_contra he
  apply absurd h
  by_cases hle : idx ≤ e
  · exact FindLoop_halts_forward KeyEqual t k (e - idx) idx _ (by omega)
      (by rw [show idx + (e - idx) = e by omega]; exact he) (by omega)
  · have h0 := FindLoop_halts_forward KeyEqual t k e 0 (e + 1)
      (by omega) (by rw [show 0 + e = e by omega]; exact he) (by omega)
    exact FindLoop_halts_wrap KeyEqual t k (e + 1) h0 (t.hash_map_.length - idx) idx _
      (by omega) (by omega) (by omega)

end ProbeLemmas

section InvariantLemmas

variable {K V : Type} {Hash : K → Nat} {KeyEqual : K → K → Bool}

theorem exists_true_of_count_lt (l : List Bool) (h : l.count false < l.length) :
    ∃ e : Nat, l[e]? = some true := by
  by_contra hne
  have hall : ∀ b ∈ l, false = b := by
    intro b hb
    cases b with
    | false => rfl
    | true => exact absurd (List.mem_iff_getElem?.1 hb) hne
  have := List.count_eq_length.2 hall
  omega

theorem count_set_false (l : List Bool) (i : Nat) (h : l[i]? = some true) :
    (l.set i false).count false = l.count false + 1 := by
  obtain ⟨hi, hv⟩ := List.getElem?_eq_some.1 h
  rw [List.count_set false false l i hi, hv]
  simp

theorem count_take_le (l : List Bool) (j : Nat) :
    (l.take j).count false ≤ l.count false :=
  (List.take_sublist j l).count_le false

theorem keyEqual_congr (hl : LawfulHash Hash KeyEqual) (k k2 : K)
    (h : KeyEqual k k2 = true) : ∀ x, KeyEqual k x = KeyEqual k2 x := by
  intro x
  rw [Bool.eq_iff_iff]
  constructor
  · intro hx
    exact hl.trans _ _ _ (hl.symm _ _ h) hx
  · intro hx
    exact hl.trans _ _ _ h hx

/-- Equal keys are probed alike. -/
theorem Find_congr_key (hl : LawfulHash Hash KeyEqual) (t : HashTable K V) (k k2 : K)
    (h : KeyEqual k k2 = true) : Find Hash KeyEqual t k = Find Hash KeyEqual t k2 := by
  unfold Find
  rw [hl.hash_eq k k2 h, FindLoop_congr_key t k k2 (keyEqual_congr hl k k2 h)]

theorem Wf.exists_empty {t : HashTable K V} (h : Wf Hash KeyEqual t) :
    ∃ e : Nat, t.is_empty_[e]? = some true := by
  apply exists_true_of_count_lt
  rw [← h.count_eq, ← h.len_eq]
  exact h.room

/-- In a well-formed table `Find` returns, and returns a slot of the table that
is empty or holds an equal key. -/
theorem Wf.find_ok {t : HashTable K V} (h : Wf Hash KeyEqual t) (k : K) :
    ∃ r, Find Hash KeyEqual t k = .ok r ∧ r < t.hash_map_.length ∧
      (t.is_empty_[r]? = some true ∨
        (t.is_empty_[r]? = some false ∧
          ∃ p, t.hash_map_[r]? = some p ∧ KeyEqual k p.1 = true)) := by
  have hpos : 0 < t.hash_map_.length := by
    have := h.min_size
    unfold MIN_SIZE at this
    omega
  obtain ⟨e, he⟩ := h.exists_empty
  obtain ⟨r, hr⟩ := FindLoop_total KeyEqual t k h.len_eq
    (Hash k % t.hash_map_.length) e (Nat.mod_lt _ hpos) he
  have hspec := FindLoop_ok_spec t k _ _ _ hr
  refine ⟨r, ?_, ?_, hspec⟩
  · unfold Find
    rw [if_neg (by omega)]
    exact hr
  · rw [h.len_eq]
    rcases hspec with h1 | ⟨h1, _⟩
    · exact (List.getElem?_eq_some.1 h1).1
    · exact (List.getElem?_eq_some.1 h1).1

/-- A key equal to the key of an occupied slot is found in that slot. -/
theorem Wf.find_of_holds (hl : LawfulHash Hash KeyEqual) {t : HashTable K V}
    (h : Wf Hash KeyEqual t) (k : K) (i : Nat) (p : K × V)
    (h1 : t.is_empty_[i]? = some false) (h2 : t.hash_map_[i]? = some p)
    (hk : KeyEqual k p.1 = true) : Find Hash KeyEqual t k = .ok i := by
  rw [Find_congr_key hl t k p.1 hk]
  exact h.probe i p h1 h2

/-- No two occupied slots hold equal keys. -/
theorem Wf.unique (hl : LawfulHash Hash KeyEqual) {t : HashTable K V}
    (h : Wf Hash KeyEqual t) (i j : Nat) (p q : K × V)
    (hi1 : t.is_empty_[i]? = some false) (hi2 : t.hash_map_[i]? = some p)
    (hj1 : t.is_empty_[j]? = some false) (hj2 : t.hash_map_[j]? = some q)
    (hk : KeyEqual p.1 q.1 = true) : i = j := by
  have a := h.find_of_holds hl p.1 j q hj1 hj2 hk
  have b := h.probe i p hi1 hi2
  rw [a] at b
  cases b
  rfl

/-- The slot returned by `Find` is empty exactly when the key is absent. -/
theorem Wf.find_empty_iff (hl : LawfulHash Hash KeyEqual) {t : HashTable K V}
    (h : Wf Hash KeyEqual t) (k : K) (r : Nat) (hr : Find Hash KeyEqual t k = .ok r) :
    t.is_empty_[r]? = some true ↔ t.contains KeyEqual k = false := by
  obtain ⟨r2, hr2, _, hspec⟩ := h.find_ok k
  rw [hr] at hr2
  cases hr2
  rw [contains_false_iff]
  constructor
  · intro he i p h1 h2
    by_contra hk
    have hk2 : KeyEqual k p.1 = true := by simpa using hk
    have := h.find_of_holds hl k i p h1 h2 hk2
    rw [hr] at this
    cases this
    rw [he] at h1
    cases h1
  · intro hc
    rcases hspec with h1 | ⟨h1, p, h2, hk⟩
    · exact h1
    · rw [hc r p h1 h2] at hk
      cases hk

theorem resize_nil {α : Type} (n : Nat) (x : α) : resize [] n x = List.replicate n x := by
  simp [resize]

theorem sized_hash_map_ [Inhabited K] [Inhabited V] (n : Nat) :
    (HashTable.sized n : HashTable K V).hash_map_ = List.replicate n default :=
  resize_nil n default

theorem sized_is_empty_ [Inhabited K] [Inhabited V] (n : Nat) :
    (HashTable.sized n : HashTable K V).is_empty_ = List.replicate n true :=
  resize_nil n true

/-- A table fresh from the private constructor is well formed and holds
nothing. -/
theorem Wf.of_sized [Inhabited K] [Inhabited V] (n : Nat) (hn : MIN_SIZE ≤ n) :
    Wf Hash KeyEqual (HashTable.sized n : HashTable K V) := by
  have hpos : 0 < n := by unfold MIN_SIZE at hn; omega
  refine ⟨?_, ?_, ?_, ?_, ?_⟩
  · rw [sized_hash_map_, sized_is_empty_]
    simp
  · rw [sized_hash_map_]
    simpa using hn
  · rw [sized_is_empty_]
    simp [HashTable.sized, List.count_replicate]
  · rw [sized_hash_map_]
    simpa [HashTable.sized] using hpos
  · intro i p h1
    rw [sized_is_empty_, List.getElem?_replicate] at h1
    split at h1 <;> simp at h1

theorem not_mem_entries_sized [Inhabited K] [Inhabited V] (n : Nat) (p : K × V) :
    p ∉ (HashTable.sized n : HashTable K V).entries := by
  rw [mem_entries_iff]
  rintro ⟨i, h1, _⟩
  rw [sized_is_empty_, List.getElem?_replicate] at h1
  split at h1 <;> simp at h1

/-- The invariant survives the three assignments of `AddElement` made at the
empty slot that `Find` returned. -/
theorem Wf.set_slot (hl : LawfulHash Hash KeyEqual) {t : HashTable K V}
    (h : Wf Hash KeyEqual t) (k : K) (v : V) (i : Nat)
    (hf : Find Hash KeyEqual t k = .ok i) (he : t.is_empty_[i]? = some true)
    (hroom : t.elements_count_ + 1 < t.hash_map_.length) :
    Wf Hash KeyEqual (setSlot t i k v) := by
  have hie : i < t.is_empty_.length := (List.getElem?_eq_some.1 he).1
  have hih : i < t.hash_map_.length := by rw [h.len_eq]; exact hie
  have hpos : t.hash_map_.length ≠ 0 := by omega
  have hae : ∀ j, j ≠ i → (setSlot t i k v).is_empty_[j]? = t.is_empty_[j]? := by
    intro j hj
    exact List.getElem?_set_ne (Ne.symm hj)
  have hah : ∀ j, j ≠ i → (setSlot t i k v).hash_map_[j]? = t.hash_map_[j]? := by
    intro j hj
    exact List.getElem?_set_ne (Ne.symm hj)
  have hlen2 : (setSlot t i k v).hash_map_.length = t.hash_map_.length := by
    simp [HashMap.setSlot]
  have hse : (setSlot t i k v).is_empty_[i]? = some false := by
    simp [HashMap.setSlot, List.getElem?_set_self hie]
  have hsh : (setSlot t i k v).hash_map_[i]? = some (k, v) := by
    simp [HashMap.setSlot, List.getElem?_set_self hih]
  refine ⟨?_, ?_, ?_, ?_, ?_⟩
  · simp [HashMap.setSlot, h.len_eq]
  · rw [hlen2]; exact h.min_size
  · show t.elements_count_ + 1 = (t.is_empty_.set i false).count false
    rw [count_set_false _ _ he, h.count_eq]
  · rw [hlen2]; exact hroom
  · intro j p h1 h2
    unfold Find at hf ⊢
    rw [hlen2, if_neg hpos]
    rw [if_neg hpos] at hf
    by_cases hj : j = i
    · subst hj
      rw [hsh] at h2
      cases h2
      exact FindLoop_set_self t _ k j (k, v) hlen2 hae hah hse hsh (hl.refl k) _ _ hf
    · rw [hae j hj] at h1
      rw [hah j hj] at h2
      have hp := h.probe j p h1 h2
      unfold Find at hp
      rw [if_neg hpos] at hp
      exact FindLoop_set_other t _ p.1 i hlen2 hae hah he _ _ _ hp hj

/-- After the assignments of `AddElement` at an empty slot the occupied slots
hold the pairs they held before and the new pair. -/
theorem mem_entries_setSlot (t : HashTable K V) (k : K) (v : V) (i : Nat)
    (hlen : t.hash_map_.length = t.is_empty_.length)
    (he : t.is_empty_[i]? = some true) (p : K × V) :
    p ∈ (setSlot t i k v).entries ↔ p ∈ t.entries ∨ p = (k, v) := by
  have hie : i < t.is_empty_.length := (List.getElem?_eq_some.1 he).1
  have hih : i < t.hash_map_.length := by rw [hlen]; exact hie
  have hse : (setSlot t i k v).is_empty_[i]? = some false := by
    simp [HashMap.setSlot, List.getElem?_set_self hie]
  have hsh : (setSlot t i k v).hash_map_[i]? = some (k, v) := by
    simp [HashMap.setSlot, List.getElem?_set_self hih]
  rw [mem_entries_iff, mem_entries_iff]
  constructor
  · rintro ⟨j, h1, h2⟩
    by_cases hj : j = i
    · subst hj
      rw [hsh] at h2
      exact Or.inr (Option.some.inj h2).symm
    · have e1 : (setSlot t i k v).is_empty_[j]? = t.is_empty_[j]? :=
        List.getElem?_set_ne (Ne.symm hj)
      have e2 : (setSlot t i k v).hash_map_[j]? = t.hash_map_[j]? :=
        List.getElem?_set_ne (Ne.symm hj)
      rw [e1] at h1
      rw [e2] at h2
      exact Or.inl ⟨j, h1, h2⟩
  · rintro (⟨j, h1, h2⟩ | rfl)
    · have hj : j ≠ i := by
        rintro rfl
        rw [he] at h1
        cases h1
      refine ⟨j, ?_, ?_⟩
      · rw [← h1]
        exact List.getElem?_set_ne (Ne.symm hj)
      · rw [← h2]
        exact List.getElem?_set_ne (Ne.symm hj)
    · exact ⟨i, hse, hsh⟩

/-- The call `AddElement(key, val)` when the load threshold is not exceeded:
the pair is written into the slot returned by `Find`. -/
theorem AddElementFuel_noRebuild [Inhabited K] [Inhabited V] (t : HashTable K V) (k : K) (v : V) (i f : Nat)
    (hf : Find Hash KeyEqual t k = .ok i) (hih : i < t.hash_map_.length)
    (hie : i < t.is_empty_.length)
    (hload : (t.elements_count_ + 1) * MAX_LOAD_FACTOR_DEN ≤
      t.hash_map_.length * MAX_LOAD_FACTOR_NUM) :
    AddElementFuel Hash KeyEqual (f + 1) t k v = .ok (setSlot t i k v) := by
  rw [AddElementFuel]
  simp only [hf, store, hih, hie, if_true, List.length_set]
  rw [if_neg (by omega)]
  rfl

/-- The call `AddElement(key, val)` when the load threshold is exceeded: the
pair is written and `Rebuild` runs on the result. -/
theorem AddElementFuel_rebuild [Inhabited K] [Inhabited V] (t : HashTable K V) (k : K) (v : V) (i f : Nat)
    (hf : Find Hash KeyEqual t k = .ok i) (hih : i < t.hash_map_.length)
    (hie : i < t.is_empty_.length)
    (hload : t.hash_map_.length * MAX_LOAD_FACTOR_NUM <
      (t.elements_count_ + 1) * MAX_LOAD_FACTOR_DEN) :
    AddElementFuel Hash KeyEqual (f + 1) t k v =
      RebuildWith (AddElementFuel Hash KeyEqual f) (setSlot t i k v) := by
  rw [AddElementFuel]
  simp only [hf, store, hih, hie, if_true, List.length_set]
  rw [if_pos hload]
  rfl

/-- The loop of `Rebuild` after `j` iterations, for a well-formed table that
is at most half full: the new table is well formed, has twice the capacity and
holds exactly the pairs of the occupied slots `0, ..., j - 1` of the old table. -/
theorem rebuild_prefix [Inhabited K] [Inhabited V] (hl : LawfulHash Hash KeyEqual)
    (t : HashTable K V) (h : Wf Hash KeyEqual t)
    (hload : 2 * t.elements_count_ ≤ t.hash_map_.length) (f : Nat) :
    ∀ j, j ≤ t.hash_map_.length →
      ∃ s, (List.range j).foldlM (RebuildStep (AddElementFuel Hash KeyEqual (f + 1)) t)
          (HashTable.sized (t.hash_map_.length * 2)) = .ok s ∧
        Wf Hash KeyEqual s ∧ s.hash_map_.length = t.hash_map_.length * 2 ∧
        s.elements_count_ = (t.is_empty_.take j).count false ∧
        ∀ p : K × V, p ∈ s.entries ↔
          ∃ i : Nat, i < j ∧ t.is_empty_[i]? = some false ∧ t.hash_map_[i]? = some p := by
  have hmin := h.min_size
  unfold MIN_SIZE at hmin
  intro j
  induction j with
  | zero =>
    intro _
    refine ⟨HashTable.sized (t.hash_map_.length * 2), rfl, ?_, ?_, ?_, ?_⟩
    · exact Wf.of_sized _ (by unfold MIN_SIZE; omega)
    · rw [sized_hash_map_]; simp
    · simp [HashTable.sized]
    · intro p
      constructor
      · intro hs
        exact absurd hs (not_mem_entries_sized _ p)
      · rintro ⟨i, hi, _⟩
        omega
  | succ j ih =>
    intro hj
    obtain ⟨s, hs, hwf, hlen, hcnt, hst⟩ := ih (by omega)
    have hje : j < t.is_empty_.length := by rw [← h.len_eq]; omega
    have hjh : j < t.hash_map_.length := by omega
    have e1 : t.is_empty_[j]? = some t.is_empty_[j] := List.getElem?_eq_getElem hje
    have e2 : t.hash_map_[j]? = some t.hash_map_[j] := List.getElem?_eq_getElem hjh
    have hfold : (List.range (j + 1)).foldlM
        (RebuildStep (AddElementFuel Hash KeyEqual (f + 1)) t)
        (HashTable.sized (t.hash_map_.length * 2)) =
        RebuildStep (AddElementFuel Hash KeyEqual (f + 1)) t s j := by
      rw [List.range_succ, List.foldlM_append, hs]
      simp [bind, Except.bind, pure, Except.pure]
      cases RebuildStep (AddElementFuel Hash KeyEqual (f + 1)) t s j <;> rfl
    rw [hfold]
    have htake : (t.is_empty_.take (j + 1)).count false =
        (t.is_empty_.take j).count false + (if t.is_empty_[j] = false then 1 else 0) := by
      rw [List.take_succ, e1, List.count_append]
      cases t.is_empty_[j] <;> simp
    have htot := count_take_le t.is_empty_ (j + 1)
    rw [← h.count_eq] at htot
    cases hb : t.is_empty_[j] with
    | true =>
      rw [hb] at e1 htake
      refine ⟨s, ?_, hwf, hlen, ?_, ?_⟩
      · simp [RebuildStep, e1]
      · rw [htake, hcnt]; simp
      · intro p
        rw [hst p]
        constructor
        · rintro ⟨i, hi, r⟩
          exact ⟨i, by omega, r⟩
        · rintro ⟨i, hi, h1, r⟩
          have : i ≠ j := by
            rintro rfl
            rw [e1] at h1
            cases h1
          exact ⟨i, by omega, h1, r⟩
    | false =>
      rw [hb] at e1 htake
      simp only [if_true] at htake
      have hstep : RebuildStep (AddElementFuel Hash KeyEqual (f + 1)) t s j =
          AddElementFuel Hash KeyEqual (f + 1) s t.hash_map_[j].1 t.hash_map_[j].2 := by
        simp [RebuildStep, e1, e2]
      rw [hstep]
      have habs : s.contains KeyEqual t.hash_map_[j].1 = false := by
        rw [contains_false_iff]
        intro i2 q h1 h2
        by_contra hk
        have hk2 : KeyEqual t.hash_map_[j].1 q.1 = true := by simpa using hk
        obtain ⟨i, hi, h3, h4⟩ := (hst q).1 ((mem_entries_iff s q).2 ⟨i2, h1, h2⟩)
        have := h.unique hl j i t.hash_map_[j] q e1 e2 h3 h4 hk2
        omega
      obtain ⟨r, hr, hrlt, _⟩ := hwf.find_ok t.hash_map_[j].1
      have hre : s.is_empty_[r]? = some true := (hwf.find_empty_iff hl _ r hr).2 habs
      have hadd := AddElementFuel_noRebuild s
        t.hash_map_[j].1 t.hash_map_[j].2 r f hr hrlt (by rw [← hwf.len_eq]; exact hrlt)
        (by simp only [MAX_LOAD_FACTOR_DEN, MAX_LOAD_FACTOR_NUM]; omega)
      refine ⟨_, hadd, ?_, ?_, ?_, ?_⟩
      · exact hwf.set_slot hl _ _ r hr hre (by omega)
      · simp [HashMap.setSlot, hlen]
      · show s.elements_count_ + 1 = _
        rw [htake, hcnt]
      · intro p
        rw [mem_entries_setSlot s _ _ r hwf.len_eq hre, hst p]
        constructor
        · rintro (⟨i, hi, r⟩ | rfl)
          · exact ⟨i, by omega, r⟩
          · exact ⟨j, by omega, e1, e2⟩
        · rintro ⟨i, hi, h1, h2⟩
          by_cases hij : i = j
          · subst hij
            rw [e2] at h2
            exact Or.inr (Option.some.inj h2).symm
          · exact Or.inl ⟨i, by omega, h1, h2⟩

/-- The member `Rebuild` on a well-formed table that is at most half full
returns a well-formed table of twice the capacity with the same pairs and the
same element count. -/
theorem rebuild_spec [Inhabited K] [Inhabited V] (hl : LawfulHash Hash KeyEqual)
    (t : HashTable K V) (h : Wf Hash KeyEqual t)
    (hload : 2 * t.elements_count_ ≤ t.hash_map_.length) (f : Nat) :
    ∃ s, RebuildWith (AddElementFuel Hash KeyEqual (f + 1)) t = .ok s ∧
      Wf Hash KeyEqual s ∧ s.hash_map_.length = t.hash_map_.length * 2 ∧
      s.elements_count_ = t.elements_count_ ∧
      ∀ p : K × V, p ∈ s.entries ↔ p ∈ t.entries := by
  obtain ⟨s, hs, hwf, hlen, hcnt, hst⟩ :=
    rebuild_prefix hl t h hload f t.hash_map_.length (Nat.le_refl _)
  refine ⟨s, hs, hwf, hlen, ?_, ?_⟩
  · rw [hcnt, h.count_eq, h.len_eq, List.take_length]
  · intro p
    rw [hst p, mem_entries_iff]
    constructor
    · rintro ⟨i, _, r⟩
      exact ⟨i, r⟩
    · rintro ⟨i, h1, h2⟩
      exact ⟨i, (List.getElem?_eq_some.1 h2).1, h1, h2⟩

/-- The call `AddElement(key, val)` for an absent key on a table satisfying
the invariant: it returns, the invariant holds again, the count grows by one,
the new pair is held next to the old ones, and the capacity doubles exactly
when the load threshold is exceeded. -/
theorem AddElementFuel_spec [Inhabited K] [Inhabited V] (hl : LawfulHash Hash KeyEqual)
    (t : HashTable K V) (hinv : Inv Hash KeyEqual t) (k : K) (v : V)
    (habs : t.contains KeyEqual k = false) (f : Nat) :
    ∃ t2, AddElementFuel Hash KeyEqual (f + 2) t k v = .ok t2 ∧ Inv Hash KeyEqual t2 ∧
      t2.elements_count_ = t.elements_count_ + 1 ∧
      (∀ p : K × V, p ∈ t2.entries ↔ p ∈ t.entries ∨ p = (k, v)) ∧
      t2.hash_map_.length =
        (if t.hash_map_.length * MAX_LOAD_FACTOR_NUM <
            (t.elements_count_ + 1) * MAX_LOAD_FACTOR_DEN
          then t.hash_map_.length * 2 else t.hash_map_.length) := by
  obtain ⟨h, hload⟩ := hinv
  have hmin := h.min_size
  simp only [MIN_SIZE, MAX_LOAD_FACTOR_DEN, MAX_LOAD_FACTOR_NUM] at hmin hload ⊢
  obtain ⟨r, hr, hrlt, _⟩ := h.find_ok k
  have hre : t.is_empty_[r]? = some true := (h.find_empty_iff hl _ r hr).2 habs
  have hrle : r < t.is_empty_.length := by rw [← h.len_eq]; exact hrlt
  have hwf := h.set_slot hl k v r hr hre (by omega)
  have hst := mem_entries_setSlot t k v r h.len_eq hre
  by_cases hc : t.hash_map_.length * 1 < (t.elements_count_ + 1) * 4
  · rw [if_pos hc]
    have hadd := AddElementFuel_rebuild t k v r (f + 1)
      hr hrlt hrle (by simp only [MAX_LOAD_FACTOR_DEN, MAX_LOAD_FACTOR_NUM]; exact hc)
    have hlen1 : (setSlot t r k v).hash_map_.length = t.hash_map_.length := by
      simp [HashMap.setSlot]
    have hcnt1 : (setSlot t r k v).elements_count_ = t.elements_count_ + 1 := rfl
    obtain ⟨s, hs, hswf, hslen, hscnt, hsst⟩ :=
      rebuild_spec hl (setSlot t r k v) hwf (by rw [hlen1, hcnt1]; omega) f
    refine ⟨s, ?_, ⟨hswf, ?_⟩, ?_, ?_, ?_⟩
    · rw [hadd]; exact hs
    · simp only [MAX_LOAD_FACTOR_DEN, MAX_LOAD_FACTOR_NUM]
      rw [hslen, hscnt, hlen1, hcnt1]
      omega
    · rw [hscnt, hcnt1]
    · intro p
      rw [hsst p, hst p]
    · rw [hslen, hlen1]
  · rw [if_neg hc]
    have hadd := AddElementFuel_noRebuild t k v r (f + 1)
      hr hrlt hrle (by simp only [MAX_LOAD_FACTOR_DEN, MAX_LOAD_FACTOR_NUM]; omega)
    refine ⟨setSlot t r k v, hadd, ⟨hwf, ?_⟩, rfl, hst, ?_⟩
    · simp only [MAX_LOAD_FACTOR_DEN, MAX_LOAD_FACTOR_NUM]
      show (t.elements_count_ + 1) * 4 ≤ (t.hash_map_.set r (k, v)).length * 1
      rw [List.length_set]
      omega
    · simp [HashMap.setSlot]

/-- The member `at` returns the stored value of a present key and leaves the
table as it is. -/
theorem at_of_stored (hl : LawfulHash Hash KeyEqual) {t : HashTable K V}
    (h : Wf Hash KeyEqual t) (k : K) (v : V) (hs : t.Stored KeyEqual k v) :
    HashTable.at Hash KeyEqual t k = .ok (v, t) := by
  obtain ⟨i, k2, h1, h2, hk⟩ := (stored_iff t k v).1 hs
  have hf := h.find_of_holds hl k i (k2, v) h1 h2 hk
  simp [HashTable.at, hf, h1, h2]

/-- The member `at` throws on an absent key. -/
theorem at_of_absent (hl : LawfulHash Hash KeyEqual) {t : HashTable K V}
    (h : Wf Hash KeyEqual t) (k : K) (habs : t.contains KeyEqual k = false) :
    HashTable.at Hash KeyEqual t k = .error .exception := by
  obtain ⟨r, hr, _, _⟩ := h.find_ok k
  have hre : t.is_empty_[r]? = some true := (h.find_empty_iff hl _ r hr).2 habs
  simp [HashTable.at, hr, hre]

/-- Two values stored under equal keys are the same value. -/
theorem stored_unique (hl : LawfulHash Hash KeyEqual) {t : HashTable K V}
    (h : Wf Hash KeyEqual t) (k : K) (v w : V) (hv : t.Stored KeyEqual k v)
    (hw : t.Stored KeyEqual k w) : v = w := by
  have a := at_of_stored hl h k v hv
  rw [at_of_stored hl h k w hw] at a
  cases a
  rfl

/-- The member `insert` on a present key changes nothing and reports `false`
with the slot of the key. -/
theorem insert_of_stored [Inhabited K] [Inhabited V] (hl : LawfulHash Hash KeyEqual)
    {t : HashTable K V} (h : Wf Hash KeyEqual t) (k : K) (v v2 : V)
    (hs : t.Stored KeyEqual k v) :
    ∃ i, Find Hash KeyEqual t k = .ok i ∧ t.is_empty_[i]? = some false ∧
      HashTable.insert Hash KeyEqual t (k, v2) = .ok ((i, false), t) := by
  obtain ⟨i, k2, h1, h2, hk⟩ := (stored_iff t k v).1 hs
  have hf := h.find_of_holds hl k i (k2, v) h1 h2 hk
  exact ⟨i, hf, h1, by simp [HashTable.insert, hf, h1]⟩

/-- The member `insert` on an absent key is `AddElement` followed by `Find`:
it reports `true` with the slot that now holds the pair, in a table that
satisfies the invariant, has one element more and holds the new pair next to
the old ones. -/
theorem insert_of_absent [Inhabited K] [Inhabited V] (hl : LawfulHash Hash KeyEqual)
    {t : HashTable K V} (hinv : Inv Hash KeyEqual t) (k : K) (v : V)
    (habs : t.contains KeyEqual k = false) :
    ∃ t2 j, HashTable.insert Hash KeyEqual t (k, v) = .ok ((j, true), t2) ∧
      AddElement Hash KeyEqual t k v = .ok t2 ∧ Find Hash KeyEqual t2 k = .ok j ∧
      t2.is_empty_[j]? = some false ∧ t2.hash_map_[j]? = some (k, v) ∧
      Inv Hash KeyEqual t2 ∧ t2.elements_count_ = t.elements_count_ + 1 ∧
      (∀ p : K × V, p ∈ t2.entries ↔ p ∈ t.entries ∨ p = (k, v)) ∧
      t2.hash_map_.length =
        (if t.hash_map_.length * MAX_LOAD_FACTOR_NUM <
            (t.elements_count_ + 1) * MAX_LOAD_FACTOR_DEN
          then t.hash_map_.length * 2 else t.hash_map_.length) := by
  obtain ⟨t2, hadd, hinv2, hcnt, hst, hcap⟩ := AddElementFuel_spec hl t hinv k v habs 1
  obtain ⟨r, hr, _, _⟩ := hinv.1.find_ok k
  have hre : t.is_empty_[r]? = some true := (hinv.1.find_empty_iff hl _ r hr).2 habs
  obtain ⟨i, h1, h2⟩ := (mem_entries_iff t2 (k, v)).1 ((hst _).2 (Or.inr rfl))
  have hf := hinv2.1.find_of_holds hl k i (k, v) h1 h2 (hl.refl k)
  refine ⟨t2, i, ?_, hadd, hf, h1, h2, hinv2, hcnt, hst, hcap⟩
  simp [HashTable.insert, hr, hre, AddElement, hadd, hf]

/-- The member `operator[]` on a present key returns its value and changes
nothing. -/
theorem index_of_stored [Inhabited K] [Inhabited V] (hl : LawfulHash Hash KeyEqual)
    {t : HashTable K V} (h : Wf Hash KeyEqual t) (k : K) (v : V)
    (hs : t.Stored KeyEqual k v) :
    HashTable.index Hash KeyEqual t (.object k) = .ok (v, t) := by
  obtain ⟨i, k2, h1, h2, hk⟩ := (stored_iff t k v).1 hs
  have hf := h.find_of_holds hl k i (k2, v) h1 h2 hk
  simp [HashTable.index, KeyRef.read, hf, h1, h2]

/-- The member `operator[]` on an absent key is `AddElement` of the default
value followed by `Find`, and returns the value of the slot found, which holds
the key with the default value. -/
theorem index_of_absent [Inhabited K] [Inhabited V] (hl : LawfulHash Hash KeyEqual)
    {t : HashTable K V} (hinv : Inv Hash KeyEqual t) (k : K)
    (habs : t.contains KeyEqual k = false) :
    ∃ t2 j, HashTable.index Hash KeyEqual t (.object k) = .ok (default, t2) ∧
      AddElement Hash KeyEqual t k default = .ok t2 ∧ Find Hash KeyEqual t2 k = .ok j ∧
      t2.is_empty_[j]? = some false ∧ t2.hash_map_[j]? = some (k, default) ∧
      Inv Hash KeyEqual t2 ∧ t2.elements_count_ = t.elements_count_ + 1 ∧
      (∀ p : K × V, p ∈ t2.entries ↔ p ∈ t.entries ∨ p = (k, default)) ∧
      t2.hash_map_.length =
        (if t.hash_map_.length * MAX_LOAD_FACTOR_NUM <
            (t.elements_count_ + 1) * MAX_LOAD_FACTOR_DEN
          then t.hash_map_.length * 2 else t.hash_map_.length) := by
  obtain ⟨t2, hadd, hinv2, hcnt, hst, hcap⟩ :=
    AddElementFuel_spec hl t hinv k (default : V) habs 1
  obtain ⟨r, hr, _, _⟩ := hinv.1.find_ok k
  have hre : t.is_empty_[r]? = some true := (hinv.1.find_empty_iff hl _ r hr).2 habs
  obtain ⟨i, h1, h2⟩ := (mem_entries_iff t2 (k, default)).1 ((hst _).2 (Or.inr rfl))
  have hf := hinv2.1.find_of_holds hl k i (k, default) h1 h2 (hl.refl k)
  refine ⟨t2, i, ?_, hadd, hf, h1, h2, hinv2, hcnt, hst, hcap⟩
  simp [HashTable.index, KeyRef.read, KeyRef.readAfterAdd, hr, hre, AddElement, hadd, hf, h2]

/-- On a table satisfying the invariant, `operator[]` called with a field of
an element as its argument, for an absent key and a load that makes
`AddElement` rebuild, reads the key from replaced storage: the call is
undefined. -/
theorem index_ref_undefined_on_growth [Inhabited K] [Inhabited V]
    (hl : LawfulHash Hash KeyEqual) {t : HashTable K V} (hinv : Inv Hash KeyEqual t)
    (r : KeyRef K V) (hobj : ∀ key, r ≠ .object key) (k : K)
    (hread : KeyRef.read t r = .ok k) (habs : t.contains KeyEqual k = false)
    (hg : t.addRebuilds = true) :
    HashTable.index Hash KeyEqual t r = .error .undefined := by
  obtain ⟨t2, _, _, hadd, _⟩ := index_of_absent hl hinv k habs
  obtain ⟨i, hr, _, _⟩ := hinv.1.find_ok k
  have hre : t.is_empty_[i]? = some true := (hinv.1.find_empty_iff hl _ i hr).2 habs
  cases r with
  | object key => exact absurd rfl (hobj key)
  | first slot => simp [HashTable.index, hread, hr, hre, hadd, KeyRef.readAfterAdd, hg]
  | second slot same =>
    simp [HashTable.index, hread, hr, hre, hadd, KeyRef.readAfterAdd, hg]

/-- On a table satisfying the invariant, a call of `operator[]` that returns
leaves the table that the call with an outside object holding the same key
leaves. -/
theorem index_ref_same_table [Inhabited K] [Inhabited V]
    (hl : LawfulHash Hash KeyEqual) {t : HashTable K V} (hinv : Inv Hash KeyEqual t)
    (r : KeyRef K V) (k : K) (hread : KeyRef.read t r = .ok k) (x : V) (t2 : HashTable K V)
    (h : HashTable.index Hash KeyEqual t r = .ok (x, t2)) :
    ∃ y, HashTable.index Hash KeyEqual t (.object k) = .ok (y, t2) := by
  cases hc : t.contains KeyEqual k with
  | true =>
    obtain ⟨v, hv⟩ := (contains_true_iff t k).1 hc
    obtain ⟨i, k2, h1, h2, hk⟩ := (stored_iff t k v).1 hv
    have hf := hinv.1.find_of_holds hl k i (k2, v) h1 h2 hk
    simp [HashTable.index, hread, hf, h1, h2] at h
    rw [← h.2]
    exact ⟨v, index_of_stored hl hinv.1 k v hv⟩
  | false =>
    obtain ⟨t1, _, hidx, hadd, _⟩ := index_of_absent hl hinv k hc
    obtain ⟨i, hr, _, _⟩ := hinv.1.find_ok k
    have hre : t.is_empty_[i]? = some true := (hinv.1.find_empty_iff hl _ i hr).2 hc
    refine ⟨default, ?_⟩
    rw [hidx]
    simp only [HashTable.index, hread, hr, hre, hadd] at h
    cases h1 : KeyRef.readAfterAdd t t1 r with
    | error e => simp [h1] at h
    | ok k1 =>
      cases h2 : Find Hash KeyEqual t1 k1 with
      | error e => simp [h1, h2] at h
      | ok j =>
        cases h3 : t1.hash_map_[j]? with
        | none => simp [h1, h2, h3] at h
        | some p =>
          simp [h1, h2, h3] at h
          rw [h.2]

end InvariantLemmas

section FuelLemmas

variable {K V : Type} [Inhabited K] [Inhabited V] {Hash : K → Nat} {KeyEqual : K → K → Bool}

theorem FindLoop_ne_fuel (t : HashTable K V) (k : K) :
    ∀ (fuel idx : Nat), FindLoop KeyEqual t k fuel idx ≠ .error .fuel := by
  intro fuel
  induction fuel with
  | zero => intro idx h; cases h
  | succ f ih =>
    intro idx
    rw [FindLoop]
    cases he : t.is_empty_[idx]? with
    | none => simp
    | some b =>
      cases b with
      | true => simp
      | false =>
        cases hp : t.hash_map_[idx]? with
        | none => simp
        | some p =>
          cases hk : KeyEqual k p.1 with
          | true => simp [hk]
          | false => simpa [hk] using ih _

theorem Find_ne_fuel (t : HashTable K V) (k : K) :
    Find Hash KeyEqual t k ≠ .error .fuel := by
  unfold Find
  split
  · intro h; cases h
  · exact FindLoop_ne_fuel t k _ _

/-- The shape of a call of `AddElement`: a fault other than an exhausted
budget, or the three assignments followed by the load test. -/
theorem AddElementFuel_cases (Hash : K → Nat) (KeyEqual : K → K → Bool)
    (t : HashTable K V) (k : K) (v : V) (f : Nat) :
    (∃ e, e ≠ Fault.fuel ∧ ∀ f2, AddElementFuel Hash KeyEqual (f2 + 1) t k v = .error e) ∨
      ∃ i, Find Hash KeyEqual t k = .ok i ∧ i < t.hash_map_.length ∧
        i < t.is_empty_.length ∧
        ((t.hash_map_.length * MAX_LOAD_FACTOR_NUM <
              (t.elements_count_ + 1) * MAX_LOAD_FACTOR_DEN ∧
            AddElementFuel Hash KeyEqual (f + 1) t k v =
              RebuildWith (AddElementFuel Hash KeyEqual f) (setSlot t i k v)) ∨
          ((t.elements_count_ + 1) * MAX_LOAD_FACTOR_DEN ≤
              t.hash_map_.length * MAX_LOAD_FACTOR_NUM ∧
            ∀ f2, AddElementFuel Hash KeyEqual (f2 + 1) t k v = .ok (setSlot t i k v))) := by
  cases hf : Find Hash KeyEqual t k with
  | error e =>
    left
    refine ⟨e, ?_, ?_⟩
    · rintro rfl
      exact Find_ne_fuel t k hf
    · intro f2
      rw [AddElementFuel]
      simp [hf]
  | ok i =>
    by_cases hih : i < t.hash_map_.length
    · by_cases hie : i < t.is_empty_.length
      · right
        refine ⟨i, rfl, hih, hie, ?_⟩
        by_cases hload : t.hash_map_.length * MAX_LOAD_FACTOR_NUM <
            (t.elements_count_ + 1) * MAX_LOAD_FACTOR_DEN
        · exact Or.inl ⟨hload, AddElementFuel_rebuild t k v i f hf hih hie hload⟩
        · exact Or.inr ⟨by omega, fun f2 =>
            AddElementFuel_noRebuild t k v i f2 hf hih hie (by omega)⟩
      · left
        refine ⟨.undefined, by simp, ?_⟩
        intro f2
        rw [AddElementFuel]
        simp [hf, store, hih, hie]
    · left
      refine ⟨.undefined, by simp, ?_⟩
      intro f2
      rw [AddElementFuel]
      simp [hf, store, hih]

/-- The loop of `Rebuild` does not depend on the `AddElement` it is given, as
long as the two agree wherever the first does not exhaust its budget. -/
theorem rebuild_fold_congr (g g2 : HashTable K V → K → V → Except Fault (HashTable K V))
    (t : HashTable K V)
    (hg : ∀ s k v, g s k v ≠ .error .fuel → g2 s k v = g s k v) :
    ∀ (l : List Nat) (s : HashTable K V),
      l.foldlM (RebuildStep g t) s ≠ .error .fuel →
      l.foldlM (RebuildStep g2 t) s = l.foldlM (RebuildStep g t) s := by
  intro l
  induction l with
  | nil => intro s _; rfl
  | cons a l ih =>
    intro s h
    rw [List.foldlM_cons, List.foldlM_cons] at *
    have hstep : RebuildStep g t s a ≠ .error .fuel →
        RebuildStep g2 t s a = RebuildStep g t s a := by
      unfold RebuildStep
      cases t.is_empty_[a]? with
      | none => intro _; rfl
      | some b =>
        cases b with
        | true => intro _; rfl
        | false =>
          cases t.hash_map_[a]? with
          | none => intro _; rfl
          | some p => exact hg s p.1 p.2
    cases hr : RebuildStep g t s a with
    | error e =>
      rw [hr] at h
      have he : e ≠ Fault.fuel := by
        rintro rfl
        exact h rfl
      rw [hstep (by rw [hr]; intro h2; cases h2; exact he rfl), hr]
      rfl
    | ok s2 =>
      rw [hr] at h
      rw [hstep (by rw [hr]; intro h2; cases h2), hr]
      exact ih s2 h

/-- A call of `AddElement` that does not exhaust its nesting budget has the
same outcome with a larger budget. -/
theorem AddElementFuel_mono :
    ∀ (f : Nat) (t : HashTable K V) (k : K) (v : V),
      AddElementFuel Hash KeyEqual f t k v ≠ .error .fuel →
      AddElementFuel Hash KeyEqual (f + 1) t k v = AddElementFuel Hash KeyEqual f t k v := by
  intro f
  induction f with
  | zero => intro t k v h; exact absurd rfl h
  | succ f ih =>
    intro t k v h
    rcases AddElementFuel_cases Hash KeyEqual t k v f with
      ⟨e, _, he⟩ | ⟨i, hfi, hih, hie, ⟨hload, hr⟩ | ⟨_, hn⟩⟩
    · rw [he (f + 1), he f]
    · have hr2 := AddElementFuel_rebuild t k v i (f + 1) hfi hih hie hload
      rw [hr2, hr]
      rw [hr] at h
      exact rebuild_fold_congr _ _ _ ih _ _ h
    · rw [hn (f + 1), hn f]

theorem count_set_false_le (l : List Bool) (i : Nat) (hi : i < l.length) :
    (l.set i false).count false ≤ l.count false + 1 := by
  rw [List.count_set false false l i hi]
  simp

/-- The assignments of `AddElement` keep the two arrays of one length and the
counter at least the number of occupied slots. -/
theorem setSlot_bounds (s : HashTable K V) (i : Nat) (k : K) (v : V)
    (hlen : s.hash_map_.length = s.is_empty_.length) (hi : i < s.is_empty_.length)
    (hocc : s.is_empty_.count false ≤ s.elements_count_) :
    (setSlot s i k v).hash_map_.length = (setSlot s i k v).is_empty_.length ∧
      (setSlot s i k v).hash_map_.length = s.hash_map_.length ∧
      (setSlot s i k v).is_empty_.count false ≤ (setSlot s i k v).elements_count_ ∧
      (setSlot s i k v).elements_count_ = s.elements_count_ + 1 := by
  refine ⟨by simp [HashMap.setSlot, hlen], by simp [HashMap.setSlot], ?_, rfl⟩
  show (s.is_empty_.set i false).count false ≤ s.elements_count_ + 1
  have := count_set_false_le s.is_empty_ i hi
  omega

/-- The loop of `Rebuild` with an `add` that stays within its budget: it ends
in a fault other than an exhausted budget, or returns a table whose counter is
at most the number of occupied slots visited. -/
theorem rebuild_fold_bounded (g : HashTable K V → K → V → Except Fault (HashTable K V))
    (w : HashTable K V) (L0 B : Nat) (hL0 : L0 ≤ w.hash_map_.length * 2)
    (hB : ∀ j, j ≤ w.hash_map_.length → (w.is_empty_.take j).count false ≤ B)
    (hg : AddWithin g L0 B) :
    ∀ j, j ≤ w.hash_map_.length →
      (∃ e, e ≠ Fault.fuel ∧
        (List.range j).foldlM (RebuildStep g w) (HashTable.sized (w.hash_map_.length * 2)) =
          .error e) ∨
      ∃ u, (List.range j).foldlM (RebuildStep g w)
          (HashTable.sized (w.hash_map_.length * 2)) = .ok u ∧
        u.hash_map_.length = u.is_empty_.length ∧ L0 ≤ u.hash_map_.length ∧
        u.is_empty_.count false ≤ u.elements_count_ ∧
        u.elements_count_ ≤ (w.is_empty_.take j).count false := by
  intro j
  induction j with
  | zero =>
    intro _
    right
    refine ⟨HashTable.sized (w.hash_map_.length * 2), rfl, ?_, ?_, ?_, ?_⟩
    · rw [sized_hash_map_, sized_is_empty_]; simp
    · rw [sized_hash_map_]; simpa using hL0
    · rw [sized_is_empty_]; simp [List.count_replicate]
    · simp [HashTable.sized]
  | succ j ih =>
    intro hj
    have hfold : ∀ r, (List.range j).foldlM (RebuildStep g w)
        (HashTable.sized (w.hash_map_.length * 2)) = r →
        (List.range (j + 1)).foldlM (RebuildStep g w)
          (HashTable.sized (w.hash_map_.length * 2)) =
        match r with
        | .error e => .error e
        | .ok u => RebuildStep g w u j := by
      intro r hr
      rw [List.range_succ, List.foldlM_append, hr]
      cases r with
      | error e => rfl
      | ok u =>
        simp [bind, Except.bind, pure, Except.pure]
        cases RebuildStep g w u j <;> rfl
    rcases ih (by omega) with ⟨e, he, hr⟩ | ⟨u, hr, hlen, hL, hocc, hcnt⟩
    · left
      exact ⟨e, he, by rw [hfold _ hr]⟩
    · rw [hfold _ hr]
      simp only []
      have htake : (w.is_empty_.take (j + 1)).count false =
          (w.is_empty_.take j).count false + (w.is_empty_[j]?.toList).count false := by
        rw [List.take_succ, List.count_append]
      unfold RebuildStep
      cases he : w.is_empty_[j]? with
      | none => left; exact ⟨.undefined, by simp, rfl⟩
      | some b =>
        rw [he] at htake
        cases b with
        | true =>
          right
          refine ⟨u, rfl, hlen, hL, hocc, ?_⟩
          rw [htake]
          omega
        | false =>
          have hc : (w.is_empty_.take (j + 1)).count false =
              (w.is_empty_.take j).count false + 1 := by
            rw [htake]; simp
          cases hp : w.hash_map_[j]? with
          | none => left; exact ⟨.undefined, by simp, rfl⟩
          | some p =>
            have hBj := hB (j + 1) hj
            rcases hg u p.1 p.2 hlen hL hocc (by omega) with
              ⟨e, hne, hr2⟩ | ⟨s2, hr2, h1, h2, h3, h4⟩
            · left; exact ⟨e, hne, hr2⟩
            · right
              exact ⟨s2, hr2, h1, h2, h3, by omega⟩

/-- A call of `AddElement` on a table at most a quarter full after the call
needs no `Rebuild`, hence no nesting budget beyond its own level. -/
theorem AddWithin_of_room (f L0 B : Nat) (hroom : B * MAX_LOAD_FACTOR_DEN ≤
    L0 * MAX_LOAD_FACTOR_NUM) :
    AddWithin (AddElementFuel Hash KeyEqual (f + 1) : HashTable K V → K → V → _) L0 B := by
  intro s k v hlen hL hocc hB
  simp only [MAX_LOAD_FACTOR_DEN, MAX_LOAD_FACTOR_NUM] at hroom
  rcases AddElementFuel_cases Hash KeyEqual s k v f with
    ⟨e, hne, he⟩ | ⟨i, _, _, hie, ⟨hload, _⟩ | ⟨_, hn⟩⟩
  · left; exact ⟨e, hne, he f⟩
  · simp only [MAX_LOAD_FACTOR_DEN, MAX_LOAD_FACTOR_NUM] at hload
    omega
  · right
    obtain ⟨h1, h2, h3, h4⟩ := setSlot_bounds s i k v hlen hie hocc
    exact ⟨_, hn f, h1, by omega, h3, by omega⟩

/-- A call of `AddElement` made by `Rebuild` on the new table of capacity at
least `2 * C`, while fewer than `C` elements have been moved, needs at most one
nested `Rebuild`. -/
theorem AddWithin_nested (f C : Nat) :
    AddWithin (AddElementFuel Hash KeyEqual (f + 2) : HashTable K V → K → V → _) (2 * C) C := by
  intro s k v hlen hL hocc hB
  rcases AddElementFuel_cases Hash KeyEqual s k v (f + 1) with
    ⟨e, hne, he⟩ | ⟨i, _, _, hie, ⟨_, hr⟩ | ⟨_, hn⟩⟩
  · left; exact ⟨e, hne, he (f + 1)⟩
  · obtain ⟨h1, h2, h3, h4⟩ := setSlot_bounds s i k v hlen hie hocc
    rw [hr]
    have hB3 : ∀ j, j ≤ (setSlot s i k v).hash_map_.length →
        ((setSlot s i k v).is_empty_.take j).count false ≤
          (setSlot s i k v).is_empty_.count false :=
      fun j _ => count_take_le _ j
    rcases rebuild_fold_bounded (AddElementFuel Hash KeyEqual (f + 1)) (setSlot s i k v)
        ((setSlot s i k v).hash_map_.length * 2) ((setSlot s i k v).is_empty_.count false)
        (Nat.le_refl _) hB3
        (AddWithin_of_room f _ _
          (by simp only [MAX_LOAD_FACTOR_DEN, MAX_LOAD_FACTOR_NUM]; omega))
        (setSlot s i k v).hash_map_.length (Nat.le_refl _) with
      ⟨e, hne, he⟩ | ⟨u, hu, g1, g2, g3, g4⟩
    · left; exact ⟨e, hne, he⟩
    · right
      refine ⟨u, hu, g1, by omega, g3, ?_⟩
      have := hB3 (setSlot s i k v).hash_map_.length (Nat.le_refl _)
      omega
  · right
    obtain ⟨h1, h2, h3, h4⟩ := setSlot_bounds s i k v hlen hie hocc
    exact ⟨_, hn (f + 1), h1, by omega, h3, by omega⟩

/-- The three levels of nesting given to `AddElement` are never used up, on
any table whatever. -/
theorem AddElement_ne_fuel (t : HashTable K V) (k : K) (v : V) :
    AddElement Hash KeyEqual t k v ≠ .error .fuel := by
  unfold AddElement
  rcases AddElementFuel_cases Hash KeyEqual t k v 2 with
    ⟨e, hne, he⟩ | ⟨i, _, _, _, ⟨_, hr⟩ | ⟨_, hn⟩⟩
  · rw [he 2]
    intro h
    cases h
    exact hne rfl
  · rw [hr]
    have hB : ∀ j, j ≤ (setSlot t i k v).hash_map_.length →
        ((setSlot t i k v).is_empty_.take j).count false ≤
          (setSlot t i k v).hash_map_.length := by
      intro j hj
      have h1 := List.count_le_length false ((setSlot t i k v).is_empty_.take j)
      have h2 := List.length_take_le j (setSlot t i k v).is_empty_
      omega
    rcases rebuild_fold_bounded (AddElementFuel Hash KeyEqual 2) (setSlot t i k v)
        (2 * (setSlot t i k v).hash_map_.length) (setSlot t i k v).hash_map_.length
        (by omega) hB (AddWithin_nested 0 _) (setSlot t i k v).hash_map_.length
        (Nat.le_refl _) with
      ⟨e, hne, he⟩ | ⟨u, hu, _⟩
    · unfold RebuildWith
      rw [he]
      intro h
      cases h
      exact hne rfl
    · unfold RebuildWith
      rw [hu]
      intro h
      cases h
  · rw [hn 2]
    intro h
    cases h

/-- The outcome of `AddElement` is the outcome with any larger nesting
budget. -/
theorem AddElementFuel_budget_irrelevant (t : HashTable K V) (k : K) (v : V) :
    ∀ extra, AddElementFuel Hash KeyEqual (3 + extra) t k v = AddElement Hash KeyEqual t k v := by
  intro extra
  induction extra with
  | zero => rfl
  | succ n ih =>
    rw [show 3 + (n + 1) = (3 + n) + 1 by omega, AddElementFuel_mono (3 + n) t k v, ih]
    rw [ih]
    exact AddElement_ne_fuel t k v

end FuelLemmas

section RunLemmas

variable {K V : Type} [Inhabited K] [Inhabited V] {Hash : K → Nat} {KeyEqual : K → K → Bool}

theorem write_of_not_clear (op : Op K V) (h : op.isClear = false) :
    ∃ p, op.write = some p := by
  cases op with
  | insert pair => exact ⟨pair, rfl⟩
  | emplace key val => exact ⟨(key, val), rfl⟩
  | index key => exact ⟨(key, default), rfl⟩
  | clear => simp [Op.isClear] at h

/-- A call whose key is present leaves the table as it is. -/
theorem step_of_stored (hl : LawfulHash Hash KeyEqual) {t : HashTable K V}
    (h : Wf Hash KeyEqual t) (op : Op K V) (p : K × V) (hw : op.write = some p)
    (hc : t.contains KeyEqual p.1 = true) : step Hash KeyEqual t op = .ok t := by
  obtain ⟨v, hv⟩ := (contains_true_iff t p.1).1 hc
  cases op with
  | insert pair =>
    cases hw
    obtain ⟨i, _, _, hi⟩ := insert_of_stored hl h p.1 v p.2 hv
    simp [step, hi]
  | emplace key val =>
    cases hw
    obtain ⟨i, _, _, hi⟩ := insert_of_stored hl h key v val hv
    simp [step, HashTable.emplace, hi]
  | index key =>
    cases hw
    simp [step, index_of_stored hl h key v hv]
  | clear => cases hw

/-- A call whose key is absent has the effect of `AddElement`. -/
theorem step_of_absent (hl : LawfulHash Hash KeyEqual) {t : HashTable K V}
    (hinv : Inv Hash KeyEqual t) (op : Op K V) (p : K × V) (hw : op.write = some p)
    (hc : t.contains KeyEqual p.1 = false) :
    step Hash KeyEqual t op = AddElement Hash KeyEqual t p.1 p.2 := by
  cases op with
  | insert pair =>
    cases hw
    obtain ⟨t2, j, hi, ha, _⟩ := insert_of_absent hl hinv p.1 p.2 hc
    simp [step, hi, ha]
  | emplace key val =>
    cases hw
    obtain ⟨t2, j, hi, ha, _⟩ := insert_of_absent hl hinv key val hc
    simp [step, HashTable.emplace, hi, ha]
  | index key =>
    cases hw
    obtain ⟨t2, j, hi, ha, _⟩ := index_of_absent hl hinv key hc
    simp [step, hi, ha]
  | clear => cases hw

/-- Every call other than `clear` returns, keeps the invariant, and stores
the pair it writes exactly when its key was absent, the count growing by one. -/
theorem step_spec (hl : LawfulHash Hash KeyEqual) {t : HashTable K V}
    (hinv : Inv Hash KeyEqual t) (op : Op K V) (p : K × V) (hw : op.write = some p) :
    ∃ t2, step Hash KeyEqual t op = .ok t2 ∧ Inv Hash KeyEqual t2 ∧
      (t.contains KeyEqual p.1 = true → t2 = t) ∧
      (t.contains KeyEqual p.1 = false →
        t2.elements_count_ = t.elements_count_ + 1) ∧
      ∀ q : K × V, q ∈ t2.entries ↔
        q ∈ t.entries ∨ (t.contains KeyEqual p.1 = false ∧ q = p) := by
  cases hc : t.contains KeyEqual p.1 with
  | true =>
    refine ⟨t, step_of_stored hl hinv.1 op p hw hc, hinv, fun _ => rfl, ?_, ?_⟩
    · intro h; cases h
    · intro q
      simp
  | false =>
    obtain ⟨t2, hadd, hinv2, hcnt, hst, _⟩ := AddElementFuel_spec hl t hinv p.1 p.2 hc 1
    refine ⟨t2, ?_, hinv2, ?_, fun _ => hcnt, ?_⟩
    · rw [step_of_absent hl hinv op p hw hc]
      exact hadd
    · intro h; cases h
    · intro q
      rw [hst q]
      simp

theorem runFrom_append (t : HashTable K V) (ops : List (Op K V)) (op : Op K V) :
    runFrom Hash KeyEqual t (ops ++ [op]) =
      match runFrom Hash KeyEqual t ops with
      | .error e => .error e
      | .ok t2 => step Hash KeyEqual t2 op := by
  induction ops generalizing t with
  | nil =>
    simp only [List.nil_append, runFrom]
    cases step Hash KeyEqual t op <;> rfl
  | cons o os ih =>
    simp only [List.cons_append, runFrom]
    cases step Hash KeyEqual t o with
    | error e => rfl
    | ok t2 => exact ih t2

theorem firstPair_append (ops : List (Op K V)) (op : Op K V) (p : K × V)
    (hw : op.write = some p) (k : K) :
    firstPair KeyEqual (ops ++ [op]) k =
      match firstPair KeyEqual ops k with
      | some q => some q
      | none => if KeyEqual k p.1 then some p else none := by
  unfold firstPair
  rw [List.filterMap_append, List.find?_append]
  cases List.find? (fun q => KeyEqual k q.1) (List.filterMap Op.write ops) with
  | some q => simp
  | none =>
    simp [List.filterMap, hw, List.find?]

theorem firstPair_congr (hl : LawfulHash Hash KeyEqual) (ops : List (Op K V)) (k k2 : K)
    (h : KeyEqual k k2 = true) : firstPair KeyEqual ops k = firstPair KeyEqual ops k2 := by
  unfold firstPair
  have : (fun p : K × V => KeyEqual k p.1) = (fun p : K × V => KeyEqual k2 p.1) := by
    funext p
    exact keyEqual_congr hl k k2 h p.1
  rw [this]

theorem firstPair_key (ops : List (Op K V)) (k : K) (q : K × V)
    (h : firstPair KeyEqual ops k = some q) : KeyEqual k q.1 = true := by
  unfold firstPair at h
  exact List.find?_some (p := fun p : K × V => KeyEqual k p.1) h

theorem new_eq_sized : (HashTable.new : HashTable K V) = HashTable.sized MIN_SIZE := rfl

/-- A default-constructed table satisfies the invariant. -/
theorem Inv.of_new : Inv Hash KeyEqual (HashTable.new : HashTable K V) := by
  rw [new_eq_sized]
  refine ⟨Wf.of_sized _ (Nat.le_refl _), ?_⟩
  simp [HashTable.sized]

/-- Every sequence of `insert`, `emplace` and `operator[]` calls on a
default-constructed table returns a table that satisfies the invariant and
holds, for each key written, the pair of the first call that wrote the key. -/
theorem run_spec (hl : LawfulHash Hash KeyEqual) (ops : List (Op K V))
    (hnc : ∀ op ∈ ops, op.isClear = false) :
    ∃ t, run Hash KeyEqual ops = .ok t ∧ Inv Hash KeyEqual t ∧
      ∀ q : K × V, q ∈ t.entries ↔ firstPair KeyEqual ops q.1 = some q := by
  induction ops using List.reverseRecOn with
  | nil =>
    refine ⟨HashTable.new, rfl, Inv.of_new, ?_⟩
    intro q
    rw [new_eq_sized]
    simp [firstPair, not_mem_entries_sized]
  | append_singleton ops op ih =>
    obtain ⟨t, hrun, hinv, hst⟩ := ih (fun o ho => hnc o (List.mem_append_left _ ho))
    obtain ⟨p, hw⟩ := write_of_not_clear op (hnc op (by simp))
    obtain ⟨t2, hstep, hinv2, _, _, hst2⟩ := step_spec hl hinv op p hw
    refine ⟨t2, ?_, hinv2, ?_⟩
    · unfold run at hrun ⊢
      rw [runFrom_append, hrun]
      exact hstep
    · have hcontains : t.contains KeyEqual p.1 = false ↔
          firstPair KeyEqual ops p.1 = none := by
        constructor
        · intro hc
          cases hfw : firstPair KeyEqual ops p.1 with
          | none => rfl
          | some w =>
            have hk := firstPair_key ops p.1 w hfw
            have hw2 : w ∈ t.entries := by
              rw [hst w, ← firstPair_congr hl ops p.1 w.1 hk]
              exact hfw
            obtain ⟨i, h1, h2⟩ := (mem_entries_iff t w).1 hw2
            rw [(contains_false_iff t p.1).1 hc i w h1 h2] at hk
            cases hk
        · intro hfw
          rw [contains_false_iff]
          intro i w h1 h2
          by_contra hk
          have hk2 : KeyEqual p.1 w.1 = true := by simpa using hk
          have := (hst w).1 ((mem_entries_iff t w).2 ⟨i, h1, h2⟩)
          rw [← firstPair_congr hl ops p.1 w.1 hk2, hfw] at this
          cases this
      intro q
      rw [hst2 q, firstPair_append ops op p hw q.1, hst q, hcontains]
      cases hq : firstPair KeyEqual ops q.1 with
      | some w =>
        simp only [Option.some.injEq]
        constructor
        · rintro (h | ⟨hn, rfl⟩)
          · exact h
          · rw [hn] at hq
            cases hq
        · intro h
          exact Or.inl h
      | none =>
        constructor
        · rintro (h | ⟨_, rfl⟩)
          · cases h
          · simp [hl.refl]
        · intro h
          by_cases hk : KeyEqual q.1 p.1 = true
          · simp only [hk, if_true, Option.some.injEq] at h
            subst h
            exact Or.inr ⟨hq, rfl⟩
          · simp [hk] at h

/-- What a reached table stores is the value of the first call that wrote an
equal key. -/
theorem stored_iff_firstWrite (hl : LawfulHash Hash KeyEqual) (ops : List (Op K V))
    (t : HashTable K V)
    (hst : ∀ q : K × V, q ∈ t.entries ↔ firstPair KeyEqual ops q.1 = some q)
    (k : K) (v : V) :
    t.Stored KeyEqual k v ↔ firstWrite KeyEqual ops k = some v := by
  unfold HashTable.Stored firstWrite
  constructor
  · rintro ⟨q, hq, hk, rfl⟩
    rw [firstPair_congr hl ops k q.1 hk, (hst q).1 hq]
    rfl
  · intro h
    cases hfp : firstPair KeyEqual ops k with
    | none => rw [hfp] at h; cases h
    | some q =>
      rw [hfp] at h
      have hk := firstPair_key ops k q hfp
      refine ⟨q, ?_, hk, ?_⟩
      · rw [hst q, ← firstPair_congr hl ops k q.1 hk]
        exact hfp
      · simpa using h

/-- A table reached by `insert`, `emplace` and `operator[]` calls satisfies
the invariant and holds the first pair written for each key. -/
theorem reached_spec (hl : LawfulHash Hash KeyEqual) (ops : List (Op K V))
    (hnc : ∀ op ∈ ops, op.isClear = false) (t : HashTable K V)
    (hrun : run Hash KeyEqual ops = .ok t) :
    Inv Hash KeyEqual t ∧
      ∀ q : K × V, q ∈ t.entries ↔ firstPair KeyEqual ops q.1 = some q := by
  obtain ⟨t2, hrun2, hinv, hst⟩ := run_spec hl ops hnc
  rw [hrun] at hrun2
  cases hrun2
  exact ⟨hinv, hst⟩

/-- A key is absent from a reached table exactly when no call wrote an equal
key. -/
theorem contains_false_iff_never_written (hl : LawfulHash Hash KeyEqual)
    (ops : List (Op K V)) (t : HashTable K V)
    (hst : ∀ q : K × V, q ∈ t.entries ↔ firstPair KeyEqual ops q.1 = some q) (k : K) :
    t.contains KeyEqual k = false ↔
      ∀ op ∈ ops, ∀ p : K × V, op.write = some p → KeyEqual k p.1 = false := by
  rw [contains_false_iff]
  constructor
  · intro hc op hop p hw
    by_contra hk
    have hk2 : KeyEqual k p.1 = true := by simpa using hk
    cases hfp : firstPair KeyEqual ops k with
    | none =>
      unfold firstPair at hfp
      rw [List.find?_eq_none] at hfp
      exact hfp p (List.mem_filterMap.2 ⟨op, hop, hw⟩) hk2
    | some q =>
      have hq := firstPair_key ops k q hfp
      have hmem : q ∈ t.entries := by
        rw [hst q, ← firstPair_congr hl ops k q.1 hq]
        exact hfp
      obtain ⟨i, h1, h2⟩ := (mem_entries_iff t q).1 hmem
      rw [hc i q h1 h2] at hq
      cases hq
  · intro hn i q h1 h2
    have hfp := (hst q).1 ((mem_entries_iff t q).2 ⟨i, h1, h2⟩)
    have hqmem : q ∈ ops.filterMap Op.write := by
      unfold firstPair at hfp
      exact List.mem_of_find?_eq_some hfp
    obtain ⟨op, hop, hw⟩ := List.mem_filterMap.1 hqmem
    exact hn op hop q hw

/-- A table whose counter is zero, the counter being the number of occupied
slots, contains no key. -/
theorem contains_false_of_size_zero {t : HashTable K V} (h : Wf Hash KeyEqual t)
    (hz : t.elements_count_ = 0) (k : K) : t.contains KeyEqual k = false := by
  rw [contains_false_iff]
  intro i p h1 _
  have hc : t.is_empty_.count false = 0 := by rw [← h.count_eq, hz]
  have hmem : false ∈ t.is_empty_ := List.mem_iff_getElem?.2 ⟨i, h1⟩
  have := List.count_pos_iff.2 hmem
  omega

theorem natLawful : LawfulHash natHash natEq := by
  refine ⟨?_, ?_, ?_, ?_⟩
  · intro a; simp [natEq]
  · intro a b h; simp [natEq] at h ⊢; omega
  · intro a b c h1 h2; simp [natEq] at h1 h2 ⊢; omega
  · intro a b h; simp [natEq] at h; simp [natHash, h]

theorem ops3_no_clear : ∀ op ∈ ops3, op.isClear = false := by decide

theorem run_ops3 : run natHash natEq ops3 = .ok table3 := by rfl

end RunLemmas

section IterationLemmas

variable {K V : Type} {Hash : K → Nat} {KeyEqual : K → K → Bool}

theorem entriesFrom_zero (t : HashTable K V) : t.entriesFrom 0 = t.entries := by
  simp [HashTable.entriesFrom, HashTable.entries]

theorem entriesFrom_end (t : HashTable K V) (i : Nat) (hi : t.hash_map_.length ≤ i) :
    t.entriesFrom i = [] := by
  unfold HashTable.entriesFrom
  rw [List.drop_of_length_le]
  · rfl
  · rw [List.length_zip]
    omega

theorem entriesFrom_slot (t : HashTable K V) (i : Nat) (b : Bool) (p : K × V)
    (h1 : t.is_empty_[i]? = some b) (h2 : t.hash_map_[i]? = some p) :
    t.entriesFrom i = if b then t.entriesFrom (i + 1) else p :: t.entriesFrom (i + 1) := by
  obtain ⟨hi1, hv1⟩ := List.getElem?_eq_some.1 h1
  obtain ⟨hi2, hv2⟩ := List.getElem?_eq_some.1 h2
  have hz : i < (t.is_empty_.zip t.hash_map_).length := by
    rw [List.length_zip]
    omega
  unfold HashTable.entriesFrom
  rw [List.drop_eq_getElem_cons hz, List.getElem_zip, hv1, hv2]
  cases b <;> simp [List.filter_cons]

theorem mem_entriesFrom (t : HashTable K V) (i : Nat) (q : K × V)
    (h : q ∈ t.entriesFrom i) :
    ∃ j : Nat, i ≤ j ∧ t.is_empty_[j]? = some false ∧ t.hash_map_[j]? = some q := by
  unfold HashTable.entriesFrom at h
  obtain ⟨⟨b, q2⟩, hq, rfl⟩ := List.mem_map.1 h
  obtain ⟨hz, hb⟩ := List.mem_filter.1 hq
  obtain ⟨m, hm⟩ := List.mem_iff_getElem?.1 hz
  rw [List.getElem?_drop] at hm
  obtain ⟨h1, h2⟩ := List.getElem?_zip_eq_some.1 hm
  simp at hb
  subst hb
  exact ⟨i + m, by omega, h1, h2⟩

theorem length_entries (t : HashTable K V)
    (hlen : t.hash_map_.length = t.is_empty_.length) :
    t.entries.length = t.is_empty_.count false := by
  have key : ∀ (l1 : List Bool) (l2 : List (K × V)), l1.length = l2.length →
      (((l1.zip l2).filter (fun e => !e.1)).map (fun e => e.2)).length = l1.count false := by
    intro l1
    induction l1 with
    | nil => intro l2 _; simp
    | cons b bs ih =>
      intro l2 h
      cases l2 with
      | nil => simp at h
      | cons x xs =>
        have := ih xs (by simpa using h)
        cases b <;> simp_all [List.filter_cons]
  exact key _ _ hlen.symm

/-- The loop of `begin` started at `i` returns the first occupied slot from
`i` on, or `end()`. -/
theorem beginLoop_spec (t : HashTable K V)
    (hlen : t.hash_map_.length = t.is_empty_.length) :
    ∀ (d i fuel : Nat), i + d = t.hash_map_.length → d < fuel →
      ∃ j, t.beginLoop fuel i = .ok j ∧ i ≤ j ∧ j ≤ t.hash_map_.length ∧
        (j < t.hash_map_.length → t.is_empty_[j]? = some false) ∧
        (∀ m, i ≤ m → m < j → t.is_empty_[m]? = some true) ∧
        t.entriesFrom i = t.entriesFrom j := by
  intro d
  induction d with
  | zero =>
    intro i fuel hi hf
    obtain ⟨f, rfl⟩ : ∃ f, fuel = f + 1 := ⟨fuel - 1, by omega⟩
    refine ⟨t.hash_map_.length, ?_, by omega, Nat.le_refl _, ?_, ?_, ?_⟩
    · rw [HashTable.beginLoop, if_neg (by omega)]
    · intro h; omega
    · intro m h1 h2; omega
    · rw [entriesFrom_end t i (by omega), entriesFrom_end t _ (Nat.le_refl _)]
  | succ d ih =>
    intro i fuel hi hf
    obtain ⟨f, rfl⟩ : ∃ f, fuel = f + 1 := ⟨fuel - 1, by omega⟩
    have e1 : t.is_empty_[i]? = some t.is_empty_[i] := List.getElem?_eq_getElem (by omega)
    have e2 : t.hash_map_[i]? = some t.hash_map_[i] := List.getElem?_eq_getElem (by omega)
    rw [HashTable.beginLoop, if_pos (by omega)]
    cases hb : t.is_empty_[i] with
    | false =>
      rw [hb] at e1
      refine ⟨i, by simp [e1], Nat.le_refl _, by omega, fun _ => e1, ?_, rfl⟩
      intro m h1 h2; omega
    | true =>
      rw [hb] at e1
      obtain ⟨j, hj, h1, h2, h3, h4, h5⟩ := ih (i + 1) f (by omega) (by omega)
      refine ⟨j, by simp [e1, hj], by omega, h2, h3, ?_, ?_⟩
      · intro m hm1 hm2
        by_cases hmi : m = i
        · rw [hmi]; exact e1
        · exact h4 m (by omega) hm2
      · rw [entriesFrom_slot t i true _ e1 e2, ← h5]
        rfl

/-- The loop of `operator++` on an iterator at `i` inside the table returns
the next occupied slot after `i`, or `end()`. -/
theorem nextLoop_spec (t : HashTable K V)
    (hlen : t.hash_map_.length = t.is_empty_.length) :
    ∀ (d i fuel : Nat), i + 1 + d = t.hash_map_.length → d < fuel →
      ∃ j, t.nextLoop fuel i = .ok j ∧ i < j ∧ j ≤ t.hash_map_.length ∧
        (j < t.hash_map_.length → t.is_empty_[j]? = some false) ∧
        (∀ m, i < m → m < j → t.is_empty_[m]? = some true) ∧
        t.entriesFrom (i + 1) = t.entriesFrom j := by
  intro d
  induction d with
  | zero =>
    intro i fuel hi hf
    obtain ⟨f, rfl⟩ : ∃ f, fuel = f + 1 := ⟨fuel - 1, by omega⟩
    refine ⟨i + 1, ?_, by omega, by omega, ?_, ?_, rfl⟩
    · rw [HashTable.nextLoop, if_neg (by omega)]
    · intro h; omega
    · intro m h1 h2; omega
  | succ d ih =>
    intro i fuel hi hf
    obtain ⟨f, rfl⟩ : ∃ f, fuel = f + 1 := ⟨fuel - 1, by omega⟩
    have e1 : t.is_empty_[i + 1]? = some t.is_empty_[i + 1] :=
      List.getElem?_eq_getElem (by omega)
    have e2 : t.hash_map_[i + 1]? = some t.hash_map_[i + 1] :=
      List.getElem?_eq_getElem (by omega)
    rw [HashTable.nextLoop, if_pos (by omega)]
    cases hb : t.is_empty_[i + 1] with
    | false =>
      rw [hb] at e1
      refine ⟨i + 1, by simp [e1], by omega, by omega, fun _ => e1, ?_, rfl⟩
      intro m h1 h2; omega
    | true =>
      rw [hb] at e1
      obtain ⟨j, hj, h1, h2, h3, h4, h5⟩ := ih (i + 1) f (by omega) (by omega)
      refine ⟨j, by simp [e1, hj], by omega, h2, h3, ?_, ?_⟩
      · intro m hm1 hm2
        by_cases hmi : m = i + 1
        · rw [hmi]; exact e1
        · exact h4 m (by omega) hm2
      · rw [entriesFrom_slot t (i + 1) true _ e1 e2, ← h5]
        rfl

/-- The client loop started on an occupied slot, or on `end()`, collects the
pairs of the occupied slots from there on. -/
theorem iterateLoop_spec (t : HashTable K V)
    (hlen : t.hash_map_.length = t.is_empty_.length) :
    ∀ (fuel i : Nat), t.hash_map_.length - i < fuel → i ≤ t.hash_map_.length →
      (i < t.hash_map_.length → t.is_empty_[i]? = some false) →
      t.iterateLoop fuel i = .ok (t.entriesFrom i) := by
  intro fuel
  induction fuel with
  | zero => intro i h; omega
  | succ f ih =>
    intro i hf hi hocc
    rw [HashTable.iterateLoop]
    by_cases hend : i = t.hash_map_.length
    · rw [if_neg (by simp [HashTable.end_, hend]), entriesFrom_end t i (by omega)]
    · rw [if_pos (by simpa [HashTable.end_] using hend)]
      have e2 : t.hash_map_[i]? = some t.hash_map_[i] := List.getElem?_eq_getElem (by omega)
      obtain ⟨j, hj, h1, h2, h3, _, h5⟩ :=
        nextLoop_spec t hlen (t.hash_map_.length - (i + 1)) i t.hash_map_.length
          (by omega) (by omega)
      have hrec := ih j (by omega) h2 h3
      rw [entriesFrom_slot t i false _ (hocc (by omega)) e2, h5]
      simp [HashTable.deref, e2, HashTable.next, hj, hrec]

/-- Iterating from `begin()` to `end()` visits the pairs of the occupied slots
in increasing slot order. -/
theorem iterate_eq_entries (t : HashTable K V)
    (hlen : t.hash_map_.length = t.is_empty_.length) :
    t.iterate = .ok t.entries := by
  obtain ⟨j, hj, _, h2, h3, _, h5⟩ :=
    beginLoop_spec t hlen t.hash_map_.length 0 (t.hash_map_.length + 1) (by omega) (by omega)
  unfold HashTable.iterate HashTable.begin_
  rw [hj]
  simp only []
  rw [iterateLoop_spec t hlen _ j (by omega) h2 h3, ← h5, entriesFrom_zero]

/-- The keys of the occupied slots are pairwise different. -/
theorem pairwise_entriesFrom (hl : LawfulHash Hash KeyEqual) (t : HashTable K V)
    (h : Wf Hash KeyEqual t) :
    ∀ (d i : Nat), i + d = t.hash_map_.length →
      (t.entriesFrom i).Pairwise (fun a b => KeyEqual a.1 b.1 = false) := by
  have hlen := h.len_eq
  intro d
  induction d with
  | zero =>
    intro i hi
    rw [entriesFrom_end t i (by omega)]
    exact List.Pairwise.nil
  | succ d ih =>
    intro i hi
    have e1 : t.is_empty_[i]? = some t.is_empty_[i] := List.getElem?_eq_getElem (by omega)
    have e2 : t.hash_map_[i]? = some t.hash_map_[i] := List.getElem?_eq_getElem (by omega)
    rw [entriesFrom_slot t i _ _ e1 e2]
    cases hb : t.is_empty_[i] with
    | true => exact ih (i + 1) (by omega)
    | false =>
      rw [hb] at e1
      simp only [Bool.false_eq_true, if_false]
      refine List.pairwise_cons.2 ⟨?_, ih (i + 1) (by omega)⟩
      intro q hq
      obtain ⟨j, hij, h1, h2⟩ := mem_entriesFrom t (i + 1) q hq
      by_contra hk
      have hk2 : KeyEqual t.hash_map_[i].1 q.1 = true := by simpa using hk
      have := h.unique hl i j _ q e1 e2 h1 h2 hk2
      omega

end IterationLemmas

section WalkLemmas

variable {K V : Type} {Hash : K → Nat} {KeyEqual : K → K → Bool}

theorem FindLoop_one (t : HashTable K V) (k : K) (idx r : Nat)
    (h : FindLoop KeyEqual t k 1 idx = .ok r) : r = idx := by
  rw [FindLoop] at h
  cases he : t.is_empty_[idx]? with
  | none => simp [he] at h
  | some b =>
    cases b with
    | true => simp [he] at h; exact h.symm
    | false =>
      cases hp : t.hash_map_[idx]? with
      | none => simp [he, hp] at h
      | some p =>
        cases hk : KeyEqual k p.1 with
        | true => simp [he, hp, hk] at h; exact h.symm
        | false => simp [he, hp, hk, FindLoop] at h

theorem next_index_mod (n idx d : Nat) :
    ((if idx + 1 = n then 0 else idx + 1) + d) % n = (idx + (d + 1)) % n := by
  split
  · rename_i h
    rw [show idx + (d + 1) = n + d by omega, Nat.add_mod_left, Nat.zero_add]
  · congr 1
    omega

/-- A probe that stops has walked the cyclic sequence `idx, idx + 1, ...`
modulo the capacity and passed every slot before the one it returns. -/
theorem FindLoop_walk (t : HashTable K V) (k : K) :
    ∀ (fuel idx r : Nat), idx < t.hash_map_.length →
      FindLoop KeyEqual t k fuel idx = .ok r →
      ∃ d, d < fuel ∧ r = (idx + d) % t.hash_map_.length ∧
        ∀ d2, d2 < d → t.probeContinues KeyEqual k ((idx + d2) % t.hash_map_.length) := by
  intro fuel
  induction fuel with
  | zero => intro idx r _ h; simp [FindLoop] at h
  | succ f ih =>
    intro idx r hidx h
    rcases FindLoop_step_cases KeyEqual t k f idx with ⟨hc, h1⟩ | ⟨_, _, h2⟩
    · rw [h1] at h
      have hnext : (if idx + 1 = t.hash_map_.length then 0 else idx + 1) <
          t.hash_map_.length := by
        split <;> omega
      obtain ⟨d, hd, hr, hall⟩ := ih _ r hnext h
      refine ⟨d + 1, by omega, ?_, ?_⟩
      · rw [hr, next_index_mod _ idx d]
      · intro d2 hd2
        cases d2 with
        | zero =>
          rw [Nat.add_zero, Nat.mod_eq_of_lt hidx]
          exact hc
        | succ e =>
          rw [← next_index_mod _ idx e]
          exact hall e (by omega)
    · rw [← h2 0] at h
      have := FindLoop_one t k idx r h
      refine ⟨0, by omega, ?_, ?_⟩
      · rw [this, Nat.add_zero, Nat.mod_eq_of_lt hidx]
      · intro d2 hd2
        omega

/-- The member `Find`, when it returns, returns the first slot of the cyclic
sequence starting at `Hash(key) mod capacity` that is empty or holds an equal
key. -/
theorem Find_walk (t : HashTable K V) (k : K) (r : Nat)
    (h : Find Hash KeyEqual t k = .ok r) :
    ∃ d, d < t.hash_map_.length ∧
      r = (Hash k % t.hash_map_.length + d) % t.hash_map_.length ∧
      t.probeStops KeyEqual k r ∧
      ∀ d2, d2 < d →
        t.probeContinues KeyEqual k ((Hash k % t.hash_map_.length + d2) % t.hash_map_.length) := by
  unfold Find at h
  split at h
  · cases h
  · rename_i hn
    obtain ⟨d, hd, hr, hall⟩ :=
      FindLoop_walk t k _ _ r (Nat.mod_lt _ (Nat.pos_of_ne_zero hn)) h
    exact ⟨d, hd, hr, FindLoop_ok_spec t k _ _ r h, hall⟩

theorem not_stops_of_continues (t : HashTable K V) (k : K) (j : Nat)
    (h : t.probeContinues KeyEqual k j) : ¬ t.probeStops KeyEqual k j := by
  obtain ⟨h1, p, h2, hk⟩ := h
  rintro (h3 | ⟨_, q, h4, hq⟩)
  · rw [h1] at h3
    cases h3
  · rw [h2] at h4
    cases h4
    rw [hk] at hq
    cases hq

end WalkLemmas

section CapacityLemmas

variable {K V : Type} [Inhabited K] [Inhabited V] {Hash : K → Nat} {KeyEqual : K → K → Bool}

theorem CapInv.of_fresh : CapInv (HashTable.new : HashTable K V) := by
  refine ⟨⟨0, ?_⟩, Or.inl ?_⟩
  · rw [new_eq_sized, sized_hash_map_]; simp
  · rw [new_eq_sized, sized_hash_map_]; simp

/-- The capacity invariant survives a call that adds a key. -/
theorem CapInv.after_add {t t2 : HashTable K V} (h : CapInv t)
    (hcnt : t2.elements_count_ = t.elements_count_ + 1)
    (hcap : t2.hash_map_.length =
      (if t.hash_map_.length * MAX_LOAD_FACTOR_NUM <
          (t.elements_count_ + 1) * MAX_LOAD_FACTOR_DEN
        then t.hash_map_.length * 2 else t.hash_map_.length)) : CapInv t2 := by
  obtain ⟨⟨n, hn⟩, hlow⟩ := h
  simp only [MAX_LOAD_FACTOR_DEN, MAX_LOAD_FACTOR_NUM] at hcap
  unfold CapInv
  split at hcap
  · refine ⟨⟨n + 1, ?_⟩, Or.inr ?_⟩
    · rw [hcap, hn, Nat.pow_succ]
      ring
    · rw [hcap, hcnt]
      omega
  · refine ⟨⟨n, by rw [hcap, hn]⟩, ?_⟩
    rw [hcap, hcnt]
    rcases hlow with h1 | h1
    · exact Or.inl h1
    · exact Or.inr (by omega)

/-- What a call other than `clear` does to a table satisfying the invariant:
nothing when its key is present; otherwise it adds one element, at the cost of
one doubling of the capacity exactly when the load threshold is exceeded, with
no growth nested in the doubling. -/
theorem step_capacity (hl : LawfulHash Hash KeyEqual) {t : HashTable K V}
    (hinv : Inv Hash KeyEqual t) (op : Op K V) (p : K × V) (hw : op.write = some p) :
    ∃ t2, step Hash KeyEqual t op = .ok t2 ∧ Inv Hash KeyEqual t2 ∧
      (t.contains KeyEqual p.1 = true → t2 = t) ∧
      (t.contains KeyEqual p.1 = false →
        t2.elements_count_ = t.elements_count_ + 1 ∧
        t2.hash_map_.length =
          (if t.hash_map_.length * MAX_LOAD_FACTOR_NUM <
              (t.elements_count_ + 1) * MAX_LOAD_FACTOR_DEN
            then t.hash_map_.length * 2 else t.hash_map_.length) ∧
        AddElementFuel Hash KeyEqual 2 t p.1 p.2 = .ok t2) := by
  cases hc : t.contains KeyEqual p.1 with
  | true =>
    refine ⟨t, step_of_stored hl hinv.1 op p hw hc, hinv, fun _ => rfl, ?_⟩
    intro h; cases h
  | false =>
    obtain ⟨t2, hadd, hinv2, hcnt, _, hcap⟩ := AddElementFuel_spec hl t hinv p.1 p.2 hc 0
    have h3 : AddElementFuel Hash KeyEqual 3 t p.1 p.2 = .ok t2 := by
      rw [AddElementFuel_mono 2 t p.1 p.2 (by rw [hadd]; intro h; cases h)]
      exact hadd
    refine ⟨t2, ?_, hinv2, ?_, fun _ => ⟨hcnt, hcap, hadd⟩⟩
    · rw [step_of_absent hl hinv op p hw hc]
      exact h3
    · intro h; cases h

/-- A reached table satisfies the capacity invariant. -/
theorem reached_capInv (hl : LawfulHash Hash KeyEqual) (ops : List (Op K V))
    (hnc : ∀ op ∈ ops, op.isClear = false) :
    ∀ t : HashTable K V, run Hash KeyEqual ops = .ok t → CapInv t := by
  induction ops using List.reverseRecOn with
  | nil =>
    intro t hrun
    cases hrun
    exact CapInv.of_fresh
  | append_singleton ops op ih =>
    intro t2 hrun
    have hnc1 : ∀ o ∈ ops, o.isClear = false := fun o ho => hnc o (List.mem_append_left _ ho)
    obtain ⟨t, hrun1, hinv, _⟩ := run_spec hl ops hnc1
    obtain ⟨p, hw⟩ := write_of_not_clear op (hnc op (by simp))
    obtain ⟨t3, hstep, _, hsame, hadd⟩ := step_capacity hl hinv op p hw
    unfold run at hrun hrun1
    rw [runFrom_append, hrun1] at hrun
    simp only [] at hrun
    rw [hstep] at hrun
    cases hrun
    have hcap := ih hnc1 t hrun1
    cases hc : t.contains KeyEqual p.1 with
    | true => rw [hsame hc]; exact hcap
    | false =>
      obtain ⟨hcnt, hlen, _⟩ := hadd hc
      exact hcap.after_add hcnt hlen

/-- Under the load bound the capacity invariant fixes the capacity as a
function of the count. -/
theorem CapInv.capacity_unique {t1 t2 : HashTable K V} (h1 : CapInv t1) (h2 : CapInv t2)
    (hc : t1.elements_count_ = t2.elements_count_)
    (hl1 : 4 * t1.elements_count_ ≤ t1.hash_map_.length)
    (hl2 : 4 * t2.elements_count_ ≤ t2.hash_map_.length) :
    t1.hash_map_.length = t2.hash_map_.length := by
  obtain ⟨⟨a, ha⟩, hlow1⟩ := h1
  obtain ⟨⟨b, hb⟩, hlow2⟩ := h2
  unfold MIN_SIZE at ha hb hlow1 hlow2
  have hpa : 0 < 2 ^ a := Nat.pow_pos (by omega)
  have hpb : 0 < 2 ^ b := Nat.pow_pos (by omega)
  rcases Nat.lt_trichotomy a b with hab | hab | hab
  · have := Nat.pow_le_pow_right (show 0 < 2 by omega) (show a + 1 ≤ b by omega)
    rw [Nat.pow_succ] at this
    omega
  · rw [ha, hb, hab]
  · have := Nat.pow_le_pow_right (show 0 < 2 by omega) (show b + 1 ≤ a by omega)
    rw [Nat.pow_succ] at this
    omega

/-- With at most three elements the capacity is 12; with four it is 24. -/
theorem CapInv.small {t : HashTable K V} (h : CapInv t)
    (hl : 4 * t.elements_count_ ≤ t.hash_map_.length) :
    (t.elements_count_ ≤ 3 → t.hash_map_.length = 12) ∧
      (t.elements_count_ = 4 → t.hash_map_.length = 24) := by
  obtain ⟨⟨n, hn⟩, hlow⟩ := h
  unfold MIN_SIZE at hn hlow
  have key : n = 0 ∨ n = 1 ∨ 4 ≤ 2 ^ n := by
    rcases Nat.lt_trichotomy n 1 with h0 | h0 | h0
    · exact Or.inl (by omega)
    · exact Or.inr (Or.inl h0)
    · right; right
      have := Nat.pow_le_pow_right (show 0 < 2 by omega) (show 2 ≤ n by omega)
      simpa using this
  rcases key with rfl | rfl | h4
  · simp at hn
    constructor <;> intro _ <;> omega
  · simp at hn
    constructor <;> intro _ <;> omega
  · constructor <;> intro _ <;> omega

end CapacityLemmas

section VisitLemmas

variable {K V : Type} {Hash : K → Nat} {KeyEqual : K → K → Bool}

theorem occupiedFrom_zero (t : HashTable K V) : t.occupiedFrom 0 = t.occupiedIndices := by
  simp [HashTable.occupiedFrom, HashTable.occupiedIndices, List.range_eq_range']

theorem occupiedFrom_end (t : HashTable K V) (i : Nat) (hi : t.hash_map_.length ≤ i) :
    t.occupiedFrom i = [] := by
  simp [HashTable.occupiedFrom, Nat.sub_eq_zero_of_le hi]

theorem occupiedFrom_slot (t : HashTable K V) (i : Nat) (b : Bool)
    (hi : i < t.hash_map_.length) (h1 : t.is_empty_[i]? = some b) :
    t.occupiedFrom i = if b then t.occupiedFrom (i + 1) else i :: t.occupiedFrom (i + 1) := by
  unfold HashTable.occupiedFrom
  rw [show t.hash_map_.length - i = (t.hash_map_.length - (i + 1)) + 1 by omega,
    List.range'_succ]
  cases b <;> simp [List.filter_cons, h1]

theorem occupiedFrom_skip (t : HashTable K V) :
    ∀ (d i j : Nat), i + d = j → j ≤ t.hash_map_.length →
      (∀ m, i ≤ m → m < j → t.is_empty_[m]? = some true) →
      t.occupiedFrom i = t.occupiedFrom j := by
  intro d
  induction d with
  | zero =>
    intro i j hij _ _
    rw [show i = j by omega]
  | succ d ih =>
    intro i j hij hj hall
    rw [occupiedFrom_slot t i true (by omega) (hall i (Nat.le_refl _) (by omega))]
    exact ih (i + 1) j (by omega) hj (fun m hm1 hm2 => hall m (by omega) hm2)

theorem mem_occupiedIndices (t : HashTable K V)
    (hlen : t.hash_map_.length = t.is_empty_.length) (i : Nat) :
    i ∈ t.occupiedIndices ↔ t.is_empty_[i]? = some false := by
  unfold HashTable.occupiedIndices
  rw [List.mem_filter, List.mem_range]
  constructor
  · rintro ⟨_, h⟩
    simpa using h
  · intro h
    refine ⟨?_, by simpa using h⟩
    rw [hlen]
    exact (List.getElem?_eq_some.1 h).1

theorem pairwise_occupiedIndices (t : HashTable K V) :
    t.occupiedIndices.Pairwise (fun a b => a < b) := by
  unfold HashTable.occupiedIndices
  exact List.Pairwise.filter _ (List.pairwise_lt_range _)

/-- The client loop started on an occupied slot, or on `end()`, visits the
occupied slots from there on, in increasing order. -/
theorem visitLoop_spec (t : HashTable K V)
    (hlen : t.hash_map_.length = t.is_empty_.length) :
    ∀ (fuel i : Nat), t.hash_map_.length - i < fuel → i ≤ t.hash_map_.length →
      (i < t.hash_map_.length → t.is_empty_[i]? = some false) →
      t.visitLoop fuel i = .ok (t.occupiedFrom i) := by
  intro fuel
  induction fuel with
  | zero => intro i h; omega
  | succ f ih =>
    intro i hf hi hocc
    rw [HashTable.visitLoop]
    by_cases hend : i = t.hash_map_.length
    · rw [if_neg (by simp [HashTable.end_, hend]), occupiedFrom_end t i (by omega)]
    · rw [if_pos (by simpa [HashTable.end_] using hend)]
      obtain ⟨j, hj, h1, h2, h3, h4, _⟩ :=
        nextLoop_spec t hlen (t.hash_map_.length - (i + 1)) i t.hash_map_.length
          (by omega) (by omega)
      have hrec := ih j (by omega) h2 h3
      have hskip := occupiedFrom_skip t (j - (i + 1)) (i + 1) j (by omega) h2
        (fun m hm1 hm2 => h4 m (by omega) hm2)
      rw [occupiedFrom_slot t i false (by omega) (hocc (by omega)), hskip]
      simp [HashTable.next, hj, hrec]

/-- Iterating from `begin()` to `end()` visits exactly the occupied slots, in
increasing order. -/
theorem visit_eq_occupiedIndices (t : HashTable K V)
    (hlen : t.hash_map_.length = t.is_empty_.length) :
    t.visit = .ok t.occupiedIndices := by
  obtain ⟨j, hj, _, h2, h3, h4, _⟩ :=
    beginLoop_spec t hlen t.hash_map_.length 0 (t.hash_map_.length + 1) (by omega) (by omega)
  unfold HashTable.visit HashTable.begin_
  rw [hj]
  simp only []
  rw [visitLoop_spec t hlen _ j (by omega) h2 h3, ← occupiedFrom_zero,
    occupiedFrom_skip t j 0 j (by omega) h2 (fun m hm1 hm2 => h4 m hm1 hm2)]

end VisitLemmas

section OrderLemmas

variable {K V : Type} [Inhabited K] [Inhabited V] {Hash : K → Nat} {KeyEqual : K → K → Bool}

theorem filterMap_write_insert (ps : List (K × V)) :
    (ps.map Op.insert).filterMap Op.write = ps := by
  induction ps with
  | nil => rfl
  | cons p ps ih => simp [List.filterMap_cons, Op.write, ih]

theorem firstPair_inserts (ps : List (K × V)) (k : K) :
    firstPair KeyEqual (ps.map Op.insert) k = ps.find? (fun p => KeyEqual k p.1) := by
  unfold firstPair
  rw [filterMap_write_insert]

theorem inserts_no_clear (ps : List (K × V)) :
    ∀ op ∈ ps.map (Op.insert : K × V → Op K V), op.isClear = false := by
  intro op hop
  obtain ⟨p, _, rfl⟩ := List.mem_map.1 hop
  rfl

theorem keys_differ_symm (hl : LawfulHash Hash KeyEqual) :
    ∀ {a b : K × V}, KeyEqual a.1 b.1 = false → KeyEqual b.1 a.1 = false := by
  intro a b h
  by_contra hn
  have hn2 : KeyEqual b.1 a.1 = true := by simpa using hn
  rw [hl.symm _ _ hn2] at h
  cases h

/-- In a list of pairs with pairwise different keys, the first pair with a key
equal to the key of a member is that member. -/
theorem find_self_of_pairwise (hl : LawfulHash Hash KeyEqual) (ps : List (K × V))
    (hd : ps.Pairwise (fun a b => KeyEqual a.1 b.1 = false)) (q : K × V) (hq : q ∈ ps) :
    ps.find? (fun p => KeyEqual q.1 p.1) = some q := by
  cases hf : ps.find? (fun p => KeyEqual q.1 p.1) with
  | none =>
    rw [List.find?_eq_none] at hf
    exact absurd (hl.refl q.1) (hf q hq)
  | some r =>
    have hr : r ∈ ps := List.mem_of_find?_eq_some hf
    have hk : KeyEqual q.1 r.1 = true :=
      List.find?_some (p := fun p : K × V => KeyEqual q.1 p.1) hf
    by_cases hqr : q = r
    · rw [hqr]
    · have hsym : Symmetric (fun a b : K × V => KeyEqual a.1 b.1 = false) :=
        fun a b h => keys_differ_symm hl h
      have := hd.forall hsym hq hr hqr
      rw [hk] at this
      cases this

/-- The pairs held by a table built by inserting pairs with pairwise different
keys are exactly those pairs. -/
theorem mem_entries_of_inserts (hl : LawfulHash Hash KeyEqual) (ps : List (K × V))
    (hd : ps.Pairwise (fun a b => KeyEqual a.1 b.1 = false)) (t : HashTable K V)
    (hrun : run Hash KeyEqual (ps.map Op.insert) = .ok t) (q : K × V) :
    q ∈ t.entries ↔ q ∈ ps := by
  obtain ⟨_, hst⟩ := reached_spec hl _ (inserts_no_clear ps) t hrun
  rw [hst q, firstPair_inserts]
  constructor
  · intro h
    exact List.mem_of_find?_eq_some h
  · intro h
    exact find_self_of_pairwise hl ps hd q h

theorem entries_nodup (hl : LawfulHash Hash KeyEqual) {t : HashTable K V}
    (h : Wf Hash KeyEqual t) : t.entries.Nodup := by
  have hpw : t.entries.Pairwise (fun a b => KeyEqual a.1 b.1 = false) := by
    rw [← entriesFrom_zero]
    exact pairwise_entriesFrom hl t h t.hash_map_.length 0 (by omega)
  refine hpw.imp ?_
  intro a b hab he
  rw [he, hl.refl] at hab
  cases hab

theorem entries_length {t : HashTable K V} (h : Wf Hash KeyEqual t) :
    t.entries.length = t.elements_count_ := by
  rw [length_entries t h.len_eq, ← h.count_eq]

/-- The member `at` returns a value exactly when that value is stored under an
equal key. -/
theorem at_ok_iff (hl : LawfulHash Hash KeyEqual) {t : HashTable K V}
    (h : Wf Hash KeyEqual t) (k : K) (v : V) :
    HashTable.at Hash KeyEqual t k = .ok (v, t) ↔ t.Stored KeyEqual k v := by
  constructor
  · intro hat
    cases hc : t.contains KeyEqual k with
    | false =>
      rw [at_of_absent hl h k hc] at hat
      cases hat
    | true =>
      obtain ⟨w, hw⟩ := (contains_true_iff t k).1 hc
      rw [at_of_stored hl h k w hw] at hat
      cases hat
      exact hw
  · exact at_of_stored hl h k v

/-- The member `at` throws exactly when the key is absent. -/
theorem at_exception_iff (hl : LawfulHash Hash KeyEqual) {t : HashTable K V}
    (h : Wf Hash KeyEqual t) (k : K) :
    HashTable.at Hash KeyEqual t k = .error .exception ↔ t.contains KeyEqual k = false := by
  constructor
  · intro hat
    cases hc : t.contains KeyEqual k with
    | false => rfl
    | true =>
      obtain ⟨w, hw⟩ := (contains_true_iff t k).1 hc
      rw [at_of_stored hl h k w hw] at hat
      cases hat
  · exact at_of_absent hl h k

end OrderLemmas

section Claims

variable {K V : Type} [Inhabited K] [Inhabited V] {Hash : K → Nat} {KeyEqual : K → K → Bool}

/-- C1: in a table reached from a default-constructed table by `insert`,
`emplace` and `operator[]` calls, `insert((k, v))` of an absent key `k` reports
`true`, makes `size()` one larger, and `at(k)` then returns `v`, whether or not
the insertion grew the table. -/
theorem C1_insert_at_round_trip (hl : LawfulHash Hash KeyEqual) (ops : List (Op K V))
    (hnc : ∀ op ∈ ops, op.isClear = false) (t : HashTable K V)
    (hrun : run Hash KeyEqual ops = .ok t) (k : K) (v : V)
    (habs : t.contains KeyEqual k = false) :
    ∃ i t2, HashTable.insert Hash KeyEqual t (k, v) = .ok ((i, true), t2) ∧
      t2.size = t.size + 1 ∧ HashTable.at Hash KeyEqual t2 k = .ok (v, t2) := by
  obtain ⟨hinv, _⟩ := reached_spec hl ops hnc t hrun
  obtain ⟨t2, j, hins, _, _, h1, h2, hinv2, hcnt, _, _⟩ := insert_of_absent hl hinv k v habs
  refine ⟨j, t2, hins, hcnt, ?_⟩
  exact at_of_stored hl hinv2.1 k v ((stored_iff t2 k v).2 ⟨j, k, h1, h2, hl.refl k⟩)

/-- C1 on the table holding keys 1, 13 and 25: inserting the absent key 2 is
the fourth insertion and grows the table. -/
theorem C1_witness :
    run natHash natEq ops3 = .ok table3 ∧ table3.contains natEq 2 = false ∧
      ∃ i t2, HashTable.insert natHash natEq table3 (2, 40) = .ok ((i, true), t2) ∧
        t2.size = table3.size + 1 ∧ HashTable.at natHash natEq t2 2 = .ok (40, t2) :=
  ⟨run_ops3, by decide,
    C1_insert_at_round_trip natLawful ops3 (by decide) table3 (by rfl) 2 40 (by decide)⟩

/-- C2: in a reached table in which key `k` is present with value `v1`,
`insert((k, v2))` reports `false` and returns the table unchanged (slot array,
markers, count and capacity), so `at(k)` is still `v1`. -/
theorem C2_duplicate_insert_noop (hl : LawfulHash Hash KeyEqual) (ops : List (Op K V))
    (hnc : ∀ op ∈ ops, op.isClear = false) (t : HashTable K V)
    (hrun : run Hash KeyEqual ops = .ok t) (k : K) (v1 v2 : V)
    (hs : t.Stored KeyEqual k v1) :
    ∃ i, HashTable.insert Hash KeyEqual t (k, v2) = .ok ((i, false), t) ∧
      HashTable.at Hash KeyEqual t k = .ok (v1, t) := by
  obtain ⟨hinv, _⟩ := reached_spec hl ops hnc t hrun
  obtain ⟨i, _, _, hins⟩ := insert_of_stored hl hinv.1 k v1 v2 hs
  exact ⟨i, hins, at_of_stored hl hinv.1 k v1 hs⟩

/-- C2 on the table holding keys 1, 13 and 25: inserting `(13, 99)` changes
nothing. -/
theorem C2_witness :
    run natHash natEq ops3 = .ok table3 ∧ table3.Stored natEq 13 20 ∧
      ∃ i, HashTable.insert natHash natEq table3 (13, 99) = .ok ((i, false), table3) ∧
        HashTable.at natHash natEq table3 13 = .ok (20, table3) :=
  ⟨run_ops3, ⟨(13, 20), by decide, by decide, rfl⟩,
    C2_duplicate_insert_noop natLawful ops3 (by decide) table3 (by rfl) 13 20 99
      ⟨(13, 20), by decide, by decide, rfl⟩⟩

/-- C3: in a reached table in which key `k2` is present with value `w`, both
`insert((k, v))` and `operator[](k)` return, and `at(k2)` still returns `w` in
the table they leave, whether or not the call grew the table. This holds for
every `k`, in particular for every `k` different from `k2`. -/
theorem C3_insert_preserves_others (hl : LawfulHash Hash KeyEqual) (ops : List (Op K V))
    (hnc : ∀ op ∈ ops, op.isClear = false) (t : HashTable K V)
    (hrun : run Hash KeyEqual ops = .ok t) (k2 : K) (w : V)
    (hs : t.Stored KeyEqual k2 w) (k : K) (v : V) :
    (∃ r t2, HashTable.insert Hash KeyEqual t (k, v) = .ok (r, t2) ∧
        HashTable.at Hash KeyEqual t2 k2 = .ok (w, t2)) ∧
      (∃ x t3, HashTable.index Hash KeyEqual t (.object k) = .ok (x, t3) ∧
        HashTable.at Hash KeyEqual t3 k2 = .ok (w, t3)) := by
  obtain ⟨hinv, _⟩ := reached_spec hl ops hnc t hrun
  obtain ⟨q, hq, hk, hv⟩ := hs
  cases hc : t.contains KeyEqual k with
  | true =>
    obtain ⟨u, hu⟩ := (contains_true_iff t k).1 hc
    obtain ⟨i, _, _, hins⟩ := insert_of_stored hl hinv.1 k u v hu
    exact ⟨⟨_, t, hins, at_of_stored hl hinv.1 k2 w ⟨q, hq, hk, hv⟩⟩,
      ⟨u, t, index_of_stored hl hinv.1 k u hu, at_of_stored hl hinv.1 k2 w ⟨q, hq, hk, hv⟩⟩⟩
  | false =>
    obtain ⟨t2, j, hins, _, _, _, _, hinv2, _, hst, _⟩ := insert_of_absent hl hinv k v hc
    obtain ⟨t3, j3, hidx, _, _, _, _, hinv3, _, hst3, _⟩ := index_of_absent hl hinv k hc
    exact ⟨⟨_, t2, hins, at_of_stored hl hinv2.1 k2 w ⟨q, (hst q).2 (Or.inl hq), hk, hv⟩⟩,
      ⟨_, t3, hidx, at_of_stored hl hinv3.1 k2 w ⟨q, (hst3 q).2 (Or.inl hq), hk, hv⟩⟩⟩

/-- C3 on the table holding keys 1, 13 and 25: the fourth key 2, inserted or
indexed, grows the table, and key 13 keeps its value 20. -/
theorem C3_witness :
    run natHash natEq ops3 = .ok table3 ∧ table3.Stored natEq 13 20 ∧
      (∃ r t2, HashTable.insert natHash natEq table3 (2, 40) = .ok (r, t2) ∧
        HashTable.at natHash natEq t2 13 = .ok (20, t2)) ∧
      (∃ x t3, HashTable.index natHash natEq table3 (.object 2) = .ok (x, t3) ∧
        HashTable.at natHash natEq t3 13 = .ok (20, t3)) :=
  ⟨run_ops3, ⟨(13, 20), by decide, by decide, rfl⟩,
    C3_insert_preserves_others natLawful ops3 (by decide) table3 (by rfl) 13 20
      ⟨(13, 20), by decide, by decide, rfl⟩ 2 40⟩

/-- C4: on a reached table `at(k)` throws exactly when no call wrote a key
equal to `k`; otherwise it returns a value stored under a key equal to `k`; it
never does anything else, and the table it returns is the table it was called
on (`at` makes no assignment, so a throwing call leaves the table as well). On
a table of size 0 it throws for every key. -/
theorem C4_at_fails_iff_absent (hl : LawfulHash Hash KeyEqual) (ops : List (Op K V))
    (hnc : ∀ op ∈ ops, op.isClear = false) (t : HashTable K V)
    (hrun : run Hash KeyEqual ops = .ok t) (k : K) :
    (HashTable.at Hash KeyEqual t k = .error .exception ↔
        ∀ op ∈ ops, ∀ p : K × V, op.write = some p → KeyEqual k p.1 = false) ∧
      (∀ (v : V) (t2 : HashTable K V), HashTable.at Hash KeyEqual t k = .ok (v, t2) →
        t2 = t ∧ t.Stored KeyEqual k v) ∧
      (HashTable.at Hash KeyEqual t k = .error .exception ∨
        ∃ v, HashTable.at Hash KeyEqual t k = .ok (v, t)) ∧
      (t.size = 0 → HashTable.at Hash KeyEqual t k = .error .exception) := by
  obtain ⟨hinv, hst⟩ := reached_spec hl ops hnc t hrun
  have hcases : (t.contains KeyEqual k = false ∧
      HashTable.at Hash KeyEqual t k = .error .exception) ∨
      (∃ v, t.Stored KeyEqual k v ∧ HashTable.at Hash KeyEqual t k = .ok (v, t)) := by
    cases hc : t.contains KeyEqual k with
    | false => exact Or.inl ⟨rfl, at_of_absent hl hinv.1 k hc⟩
    | true =>
      obtain ⟨v, hv⟩ := (contains_true_iff t k).1 hc
      exact Or.inr ⟨v, hv, at_of_stored hl hinv.1 k v hv⟩
  refine ⟨?_, ?_, ?_, ?_⟩
  · rw [← contains_false_iff_never_written hl ops t hst k]
    constructor
    · intro he
      rcases hcases with ⟨hc, _⟩ | ⟨v, _, hat⟩
      · exact hc
      · rw [hat] at he
        cases he
    · intro hc
      exact at_of_absent hl hinv.1 k hc
  · intro v t2 hat
    rcases hcases with ⟨_, he⟩ | ⟨v2, hv2, hat2⟩
    · rw [he] at hat
      cases hat
    · rw [hat2] at hat
      cases hat
      exact ⟨rfl, hv2⟩
  · rcases hcases with ⟨_, he⟩ | ⟨v, _, hat⟩
    · exact Or.inl he
    · exact Or.inr ⟨v, hat⟩
  · intro hz
    exact at_of_absent hl hinv.1 k (contains_false_of_size_zero hinv.1 hz k)

/-- C4 on the table holding keys 1, 13 and 25, for the key 2 that was never
written. -/
theorem C4_witness :
    run natHash natEq ops3 = .ok table3 ∧
      (HashTable.at natHash natEq table3 2 = .error .exception ↔
        ∀ op ∈ ops3, ∀ p : Nat × Nat, op.write = some p → natEq 2 p.1 = false) ∧
      (∀ (v : Nat) (t2 : HashTable Nat Nat),
        HashTable.at natHash natEq table3 2 = .ok (v, t2) →
          t2 = table3 ∧ table3.Stored natEq 2 v) ∧
      (HashTable.at natHash natEq table3 2 = .error .exception ∨
        ∃ v, HashTable.at natHash natEq table3 2 = .ok (v, table3)) ∧
      (table3.size = 0 → HashTable.at natHash natEq table3 2 = .error .exception) :=
  ⟨run_ops3, C4_at_fails_iff_absent natLawful ops3 (by decide) table3 (by rfl) 2⟩

/-- C5: after every sequence of `insert`, `emplace` and `operator[]` calls on a
default-constructed table, `size() <= capacity * MAX_LOAD_FACTOR`, that is
`4 * size() <= capacity`. -/
theorem C5_load_factor_bound (hl : LawfulHash Hash KeyEqual) (ops : List (Op K V))
    (hnc : ∀ op ∈ ops, op.isClear = false) (t : HashTable K V)
    (hrun : run Hash KeyEqual ops = .ok t) :
    t.size * MAX_LOAD_FACTOR_DEN ≤ t.capacity * MAX_LOAD_FACTOR_NUM ∧
      4 * t.size ≤ t.capacity := by
  obtain ⟨hinv, _⟩ := reached_spec hl ops hnc t hrun
  have h := hinv.2
  refine ⟨h, ?_⟩
  simp only [MAX_LOAD_FACTOR_DEN, MAX_LOAD_FACTOR_NUM] at h
  unfold HashTable.size HashTable.capacity
  omega

/-- C5 on the table holding keys 1, 13 and 25: three elements, capacity 12. -/
theorem C5_witness :
    run natHash natEq ops3 = .ok table3 ∧
      table3.size * MAX_LOAD_FACTOR_DEN ≤ table3.capacity * MAX_LOAD_FACTOR_NUM ∧
      4 * table3.size ≤ table3.capacity :=
  ⟨run_ops3, C5_load_factor_bound natLawful ops3 (by decide) table3 (by rfl)⟩

/-- C6, evaluated: `clear()` after `insert((1, 10))` sets the count to 0 and
keeps capacity 12, but `resize` keeps the marker and the pair of slot 1, so the
cleared table differs from a fresh one: `at(1)` returns 10 instead of throwing
and `insert((1, 20))` reports `false`. -/
theorem C6_clear_keeps_markers :
    run natHash natEq [.insert (1, 10), .clear] = .ok clearedTable ∧
      clearedTable.size = 0 ∧ clearedTable.empty = true ∧
      clearedTable.capacity = MIN_SIZE ∧
      HashTable.at natHash natEq clearedTable 1 = .ok (10, clearedTable) ∧
      HashTable.insert natHash natEq clearedTable (1, 20) = .ok ((1, false), clearedTable) ∧
      HashTable.at natHash natEq (HashTable.new : HashTable Nat Nat) 1 = .error .exception ∧
      clearedTable ≠ HashTable.new := by
  refine ⟨rfl, rfl, rfl, rfl, rfl, rfl, rfl, by decide⟩

/-- C7, evaluated: the collection constructor on `[(1, 10), (1, 20)]` calls
`AddElement` without the presence test of `insert`: the second pair overwrites
the first and the count becomes 2 with one occupied slot, while two `insert`
calls keep the value 10 and the count 1. -/
theorem C7_bulk_overwrites_and_overcounts :
    HashTable.ofCollection natHash natEq [(1, 10), (1, 20)] = .ok bulkTable ∧
      bulkTable.size = 2 ∧ bulkTable.entries = [(1, 20)] ∧
      HashTable.at natHash natEq bulkTable 1 = .ok (20, bulkTable) ∧
      run natHash natEq [.insert (1, 10), .insert (1, 20)] = .ok insertedTable ∧
      insertedTable.size = 1 ∧
      HashTable.at natHash natEq insertedTable 1 = .ok (10, insertedTable) ∧
      bulkTable ≠ insertedTable := by
  refine ⟨rfl, rfl, rfl, rfl, rfl, rfl, rfl, by decide⟩

/-- C8, evaluated: after twelve insertions with a `clear()` after every third,
no growth has happened and all 12 markers are occupied, so no slot is empty
and the probe of `Find(12)` never stops, whatever the number of tests. -/
theorem C8_find_diverges_after_clear :
    run natHash natEq opsFill = .ok fullTable ∧ fullTable.capacity = 12 ∧
      (∀ i, i < 12 → fullTable.is_empty_[i]? = some false) ∧
      Find natHash natEq fullTable 12 = .error .diverges ∧
      ∀ fuel, FindLoop natEq fullTable 12 fuel (natHash 12 % fullTable.capacity) =
        .error .diverges := by
  refine ⟨rfl, rfl, by decide, rfl, ?_⟩
  intro fuel
  apply FindLoop_diverges_of_all_continue
  · intro j hj
    have hj2 : j < 12 := hj
    unfold HashTable.probeContinues
    interval_cases j <;> exact ⟨rfl, _, rfl, rfl⟩
  · decide

/-- C9: iterating a reached table from `begin()` to `end()` returns the list
of the pairs of all occupied slots in slot order; a pair is in the list exactly
when it is the first pair written under its key, so every written key has its
first value in the list and nothing else is there; the keys of the list are
pairwise different, no pair occurs twice, and the length is `size()`. Calls of
`operator[]` are admitted next to `insert` and `emplace`, as writes of the
default value. -/
theorem C9_iteration_complete (hl : LawfulHash Hash KeyEqual) (ops : List (Op K V))
    (hnc : ∀ op ∈ ops, op.isClear = false) (t : HashTable K V)
    (hrun : run Hash KeyEqual ops = .ok t) :
    ∃ l, t.iterate = .ok l ∧
      (∀ q : K × V, q ∈ l ↔ firstPair KeyEqual ops q.1 = some q) ∧
      (∀ (k : K) (v : V), firstWrite KeyEqual ops k = some v ↔
        ∃ q ∈ l, KeyEqual k q.1 = true ∧ q.2 = v) ∧
      (∀ (i : Nat) (p : K × V), t.is_empty_[i]? = some false →
        t.hash_map_[i]? = some p → p ∈ l) ∧
      l.Pairwise (fun a b => KeyEqual a.1 b.1 = false) ∧ l.Nodup ∧
      l.length = t.size := by
  obtain ⟨hinv, hst⟩ := reached_spec hl ops hnc t hrun
  have hpw : t.entries.Pairwise (fun a b => KeyEqual a.1 b.1 = false) := by
    rw [← entriesFrom_zero]
    exact pairwise_entriesFrom hl t hinv.1 t.hash_map_.length 0 (by omega)
  refine ⟨t.entries, iterate_eq_entries t hinv.1.len_eq, hst, ?_, ?_, hpw, ?_, ?_⟩
  · intro k v
    exact (stored_iff_firstWrite hl ops t hst k v).symm
  · intro i p h1 h2
    exact (mem_entries_iff t p).2 ⟨i, h1, h2⟩
  · refine hpw.imp ?_
    intro a b hab he
    rw [he, hl.refl] at hab
    cases hab
  · rw [length_entries t hinv.1.len_eq, ← hinv.1.count_eq]
    rfl

/-- C9 on the table holding keys 1, 13 and 25. -/
theorem C9_witness :
    run natHash natEq ops3 = .ok table3 ∧
      ∃ l, table3.iterate = .ok l ∧
        (∀ q : Nat × Nat, q ∈ l ↔ firstPair natEq ops3 q.1 = some q) ∧
        (∀ (k : Nat) (v : Nat), firstWrite natEq ops3 k = some v ↔
          ∃ q ∈ l, natEq k q.1 = true ∧ q.2 = v) ∧
        (∀ (i : Nat) (p : Nat × Nat), table3.is_empty_[i]? = some false →
          table3.hash_map_[i]? = some p → p ∈ l) ∧
        l.Pairwise (fun a b => natEq a.1 b.1 = false) ∧ l.Nodup ∧
        l.length = table3.size :=
  ⟨run_ops3, C9_iteration_complete natLawful ops3 (by decide) table3 (by rfl)⟩

/-- On a reached table, `operator[]` called with an object outside the table
that holds `k`: for an absent `k` it stores the pair `(k, V{})`, makes `size()`
one larger, doubles the capacity exactly when the load threshold is exceeded,
and returns the value `V{}` of the slot that `Find` locates in the resulting
table, which is occupied and holds `(k, V{})`; for a present `k` it returns the
value that `at(k)` returns and leaves the table unchanged. -/
theorem index_object_spec (hl : LawfulHash Hash KeyEqual)
    (ops : List (Op K V)) (hnc : ∀ op ∈ ops, op.isClear = false) (t : HashTable K V)
    (hrun : run Hash KeyEqual ops = .ok t) (k : K) :
    (t.contains KeyEqual k = false →
        ∃ t2 j, HashTable.index Hash KeyEqual t (.object k) = .ok (default, t2) ∧
          t2.size = t.size + 1 ∧ Find Hash KeyEqual t2 k = .ok j ∧
          t2.is_empty_[j]? = some false ∧ t2.hash_map_[j]? = some (k, default) ∧
          t2.capacity =
            (if t.capacity * MAX_LOAD_FACTOR_NUM < (t.size + 1) * MAX_LOAD_FACTOR_DEN
              then t.capacity * 2 else t.capacity) ∧
          HashTable.at Hash KeyEqual t2 k = .ok (default, t2)) ∧
      (∀ v : V, t.Stored KeyEqual k v →
        HashTable.index Hash KeyEqual t (.object k) = .ok (v, t) ∧
          HashTable.at Hash KeyEqual t k = .ok (v, t)) := by
  obtain ⟨hinv, _⟩ := reached_spec hl ops hnc t hrun
  constructor
  · intro hc
    obtain ⟨t2, j, hidx, _, hf, h1, h2, hinv2, hcnt, _, hcap⟩ := index_of_absent hl hinv k hc
    refine ⟨t2, j, hidx, hcnt, hf, h1, h2, hcap, ?_⟩
    exact at_of_stored hl hinv2.1 k default
      ((stored_iff t2 k default).2 ⟨j, k, h1, h2, hl.refl k⟩)
  · intro v hv
    exact ⟨index_of_stored hl hinv.1 k v hv, at_of_stored hl hinv.1 k v hv⟩

/-- C10, evaluated: on the table holding `(1, 100)`, `(2, 200)`, `(3, 300)` the
call `t[t.at(1)]` binds `key` to the value 100 stored in slot 1. The key 100 is
absent and is the fourth element, so `AddElement` rebuilds: the table becomes
the one of capacity 24 that holds `(100, 0)` in slot 4, and the storage that
`key` refers to is replaced. The `Find(key)` of line 53 then reads `key` again:
the call is undefined and does not return the slot that holds 100, as the call
with an outside object holding 100 does. -/
theorem C10_index_rereads_key_after_growth :
    run natHash natEq opsAlias = .ok tableAlias ∧
      HashTable.at natHash natEq tableAlias 1 = .ok (100, tableAlias) ∧
      Find natHash natEq tableAlias 1 = .ok 1 ∧
      KeyRef.read tableAlias (.second 1 rfl) = .ok 100 ∧
      tableAlias.contains natEq 100 = false ∧ tableAlias.addRebuilds = true ∧
      AddElement natHash natEq tableAlias 100 default = .ok tableAliasGrown ∧
      tableAliasGrown.capacity = 24 ∧
      Find natHash natEq tableAliasGrown 100 = .ok 4 ∧
      tableAliasGrown.hash_map_[4]? = some (100, 0) ∧
      HashTable.index natHash natEq tableAlias (.second 1 rfl) = .error .undefined ∧
      HashTable.index natHash natEq tableAlias (.object 100) = .ok (0, tableAliasGrown) := by
  refine ⟨rfl, rfl, rfl, rfl, rfl, rfl, rfl, rfl, rfl, rfl, rfl, rfl⟩

/-- C11: on a reached table, `find(k)` of a present key returns an iterator
whose index is an occupied slot holding a key equal to `k` together with the
value that `at(k)` returns; of an absent key it returns the index of `end()`,
which is the capacity. The table is left as it is. -/
theorem C11_find_locates_present_keys (hl : LawfulHash Hash KeyEqual) (ops : List (Op K V))
    (hnc : ∀ op ∈ ops, op.isClear = false) (t : HashTable K V)
    (hrun : run Hash KeyEqual ops = .ok t) (k : K) :
    (∀ v : V, t.Stored KeyEqual k v →
        ∃ i k2, HashTable.find Hash KeyEqual t k = .ok (i, t) ∧
          t.is_empty_[i]? = some false ∧ t.hash_map_[i]? = some (k2, v) ∧
          KeyEqual k k2 = true ∧ HashTable.at Hash KeyEqual t k = .ok (v, t)) ∧
      (t.contains KeyEqual k = false →
        HashTable.find Hash KeyEqual t k = .ok (t.end_, t) ∧ t.end_ = t.capacity) := by
  obtain ⟨hinv, _⟩ := reached_spec hl ops hnc t hrun
  constructor
  · intro v hs
    obtain ⟨i, k2, h1, h2, hk⟩ := (stored_iff t k v).1 hs
    have hf := hinv.1.find_of_holds hl k i (k2, v) h1 h2 hk
    exact ⟨i, k2, by simp [HashTable.find, hf, h1], h1, h2, hk, at_of_stored hl hinv.1 k v hs⟩
  · intro hc
    obtain ⟨r, hr, _, _⟩ := hinv.1.find_ok k
    have hre : t.is_empty_[r]? = some true := (hinv.1.find_empty_iff hl _ r hr).2 hc
    exact ⟨by simp [HashTable.find, hr, hre], rfl⟩

/-- C11 on the table holding keys 1, 13 and 25, for the key 13. -/
theorem C11_witness :
    run natHash natEq ops3 = .ok table3 ∧
      (∀ v : Nat, table3.Stored natEq 13 v →
        ∃ i k2, HashTable.find natHash natEq table3 13 = .ok (i, table3) ∧
          table3.is_empty_[i]? = some false ∧ table3.hash_map_[i]? = some (k2, v) ∧
          natEq 13 k2 = true ∧ HashTable.at natHash natEq table3 13 = .ok (v, table3)) ∧
      (table3.contains natEq 13 = false →
        HashTable.find natHash natEq table3 13 = .ok (table3.end_, table3) ∧
          table3.end_ = table3.capacity) :=
  ⟨run_ops3, C11_find_locates_present_keys natLawful ops3 (by decide) table3 (by rfl) 13⟩

/-- C12, evaluated: the move constructor and the move assignment swap the two
vectors but copy the counter. The destination gets the storage and the count of
the source. The source of the move constructor is left with capacity 0 and the
old count 1, on which `at` and `insert` compute `Hash(key) % 0`; the source of a
move assignment to a fresh table is left with the 12 empty slots of the fresh
table and the old count 1, so `size()` is 1 with no slot occupied and `at(1)`
throws. -/
theorem C12_move_leaves_source_invalid :
    run natHash natEq [.insert (1, 10)] = .ok insertedTable ∧
      HashTable.moveConstruct insertedTable = (insertedTable, movedFromTable) ∧
      movedFromTable.capacity = 0 ∧ movedFromTable.size = 1 ∧
      movedFromTable.is_empty_.count false = 0 ∧
      HashTable.at natHash natEq movedFromTable 1 = .error .undefined ∧
      HashTable.insert natHash natEq movedFromTable (2, 20) = .error .undefined ∧
      HashTable.moveAssign HashTable.new insertedTable = (insertedTable, swappedFromTable) ∧
      swappedFromTable.capacity = MIN_SIZE ∧ swappedFromTable.size = 1 ∧
      swappedFromTable.is_empty_.count false = 0 ∧
      HashTable.at natHash natEq swappedFromTable 1 = .error .exception := by
  refine ⟨rfl, rfl, rfl, rfl, rfl, rfl, rfl, rfl, rfl, rfl, rfl, rfl⟩

/-- C13: on a reached table, a call of `insert`, `emplace` or `operator[]`
whose key is present returns the same table, so the capacity is unchanged; a
call whose key is absent makes `size()` one larger, leaves the capacity
unchanged when the new count is at most `capacity * MAX_LOAD_FACTOR` and makes
it exactly twice the old capacity otherwise, and the call succeeds with a
nesting budget that admits no growth inside the `Rebuild`. The capacity is
`MIN_SIZE * 2 ^ n`, at least `MIN_SIZE`; it is 12 up to three elements and 24
with four. -/
theorem C13_growth_policy (hl : LawfulHash Hash KeyEqual) (ops : List (Op K V))
    (hnc : ∀ op ∈ ops, op.isClear = false) (t : HashTable K V)
    (hrun : run Hash KeyEqual ops = .ok t) (op : Op K V) (p : K × V)
    (hw : op.write = some p) :
    (∃ t2, step Hash KeyEqual t op = .ok t2 ∧
        (t.contains KeyEqual p.1 = true → t2 = t ∧ t2.capacity = t.capacity) ∧
        (t.contains KeyEqual p.1 = false →
          t2.size = t.size + 1 ∧
          ((t.size + 1) * MAX_LOAD_FACTOR_DEN ≤ t.capacity * MAX_LOAD_FACTOR_NUM →
            t2.capacity = t.capacity) ∧
          (t.capacity * MAX_LOAD_FACTOR_NUM < (t.size + 1) * MAX_LOAD_FACTOR_DEN →
            t2.capacity = 2 * t.capacity) ∧
          AddElementFuel Hash KeyEqual 2 t p.1 p.2 = .ok t2)) ∧
      (∃ n : Nat, t.capacity = MIN_SIZE * 2 ^ n) ∧ MIN_SIZE ≤ t.capacity ∧
      (t.size ≤ 3 → t.capacity = 12) ∧ (t.size = 4 → t.capacity = 24) := by
  obtain ⟨hinv, _⟩ := reached_spec hl ops hnc t hrun
  have hcap := reached_capInv hl ops hnc t hrun
  have hload : 4 * t.elements_count_ ≤ t.hash_map_.length := by
    have := hinv.2
    simp only [MAX_LOAD_FACTOR_DEN, MAX_LOAD_FACTOR_NUM] at this
    omega
  obtain ⟨t2, hstep, _, hsame, hadd⟩ := step_capacity hl hinv op p hw
  refine ⟨⟨t2, hstep, ?_, ?_⟩, hcap.1, hinv.1.min_size, hcap.small hload⟩
  · intro hc
    exact ⟨hsame hc, by rw [hsame hc]⟩
  · intro hc
    obtain ⟨hcnt, hlen, hfuel⟩ := hadd hc
    unfold HashTable.size HashTable.capacity
    refine ⟨hcnt, ?_, ?_, hfuel⟩
    · intro h
      rw [hlen, if_neg (by omega)]
    · intro h
      rw [hlen, if_pos h]
      omega

/-- C13 on the table holding keys 1, 13 and 25 (capacity 12), for the call
`insert((2, 40))`, which adds the fourth key and doubles the capacity to 24. -/
theorem C13_witness :
    run natHash natEq ops3 = .ok table3 ∧
      step natHash natEq table3 (.insert (2, 40)) = .ok table4 ∧
      table3.capacity = 12 ∧ table4.capacity = 24 ∧
      (∃ t2, step natHash natEq table3 (.insert (2, 40)) = .ok t2 ∧
        (table3.contains natEq (2, 40).1 = true → t2 = table3 ∧ t2.capacity = table3.capacity) ∧
        (table3.contains natEq (2, 40).1 = false →
          t2.size = table3.size + 1 ∧
          ((table3.size + 1) * MAX_LOAD_FACTOR_DEN ≤ table3.capacity * MAX_LOAD_FACTOR_NUM →
            t2.capacity = table3.capacity) ∧
          (table3.capacity * MAX_LOAD_FACTOR_NUM < (table3.size + 1) * MAX_LOAD_FACTOR_DEN →
            t2.capacity = 2 * table3.capacity) ∧
          AddElementFuel natHash natEq 2 table3 (2, 40).1 (2, 40).2 = .ok t2)) ∧
      (∃ n : Nat, table3.capacity = MIN_SIZE * 2 ^ n) ∧ MIN_SIZE ≤ table3.capacity ∧
      (table3.size ≤ 3 → table3.capacity = 12) ∧ (table3.size = 4 → table3.capacity = 24) :=
  ⟨run_ops3, rfl, rfl, rfl,
    C13_growth_policy natLawful ops3 (by decide) table3 (by rfl) (.insert (2, 40)) (2, 40)
      (by rfl)⟩

/-- C14: in a table whose two arrays have one length and which has an empty
slot, `Find(k)` returns the first index of the cyclic sequence `start`,
`start + 1`, ... (modulo the capacity) with `start = Hash(k) mod capacity` at
which the slot is empty or holds a key equal to `k`; the index is reached after
fewer than `capacity` steps. `Find` is `const`: it returns an index only. -/
theorem C14_find_linear_probing (t : HashTable K V)
    (hlen : t.hash_map_.length = t.is_empty_.length) (e : Nat)
    (he : t.is_empty_[e]? = some true) (k : K) :
    ∃ d, d < t.capacity ∧
      Find Hash KeyEqual t k = .ok ((Hash k % t.capacity + d) % t.capacity) ∧
      t.probeStops KeyEqual k ((Hash k % t.capacity + d) % t.capacity) ∧
      ∀ d2, d2 < d → ¬ t.probeStops KeyEqual k ((Hash k % t.capacity + d2) % t.capacity) := by
  have hel : e < t.hash_map_.length := by
    rw [hlen]
    exact (List.getElem?_eq_some.1 he).1
  obtain ⟨r, hr⟩ := FindLoop_total KeyEqual t k hlen (Hash k % t.hash_map_.length) e
    (Nat.mod_lt _ (by omega)) he
  have hf : Find Hash KeyEqual t k = .ok r := by
    unfold Find
    rw [if_neg (by omega)]
    exact hr
  obtain ⟨d, hd, hrd, hstop, hall⟩ := Find_walk t k r hf
  unfold HashTable.capacity
  refine ⟨d, hd, ?_, ?_, ?_⟩
  · rw [← hrd]; exact hf
  · rw [← hrd]; exact hstop
  · intro d2 hd2
    exact not_stops_of_continues t k _ (hall d2 hd2)

/-- C14 on the table holding keys 1, 13 and 25 in slots 1, 2 and 3 (the
scenario of the claim: the three insertions give this table, of size 3 and
capacity 12, and all three keys are retrievable), for the key 25. -/
theorem C14_witness :
    table3.is_empty_[0]? = some true ∧ run natHash natEq ops3 = .ok table3 ∧
      table3.hash_map_[1]? = some (1, 10) ∧ table3.hash_map_[2]? = some (13, 20) ∧
      table3.hash_map_[3]? = some (25, 30) ∧ table3.size = 3 ∧ table3.capacity = 12 ∧
      HashTable.at natHash natEq table3 1 = .ok (10, table3) ∧
      HashTable.at natHash natEq table3 13 = .ok (20, table3) ∧
      HashTable.at natHash natEq table3 25 = .ok (30, table3) ∧
      ∃ d, d < table3.capacity ∧
        Find natHash natEq table3 25 = .ok ((natHash 25 % table3.capacity + d) % table3.capacity) ∧
        table3.probeStops natEq 25 ((natHash 25 % table3.capacity + d) % table3.capacity) ∧
        ∀ d2, d2 < d →
          ¬ table3.probeStops natEq 25 ((natHash 25 % table3.capacity + d2) % table3.capacity) :=
  ⟨rfl, run_ops3, rfl, rfl, rfl, rfl, rfl, rfl, rfl, rfl,
    C14_find_linear_probing table3 (by rfl) 0 (by rfl) 25⟩

/-- C15: in a reached table, for every occupied slot `i` holding key `k`, the
slot `i` lies on the cyclic walk from `Hash(k) mod capacity`, every slot of the
walk before `i` is occupied and holds a key not equal to `k`, and `Find(k)`
returns `i`. -/
theorem C15_probe_sequence_invariant (hl : LawfulHash Hash KeyEqual) (ops : List (Op K V))
    (hnc : ∀ op ∈ ops, op.isClear = false) (t : HashTable K V)
    (hrun : run Hash KeyEqual ops = .ok t) (i : Nat) (p : K × V)
    (h1 : t.is_empty_[i]? = some false) (h2 : t.hash_map_[i]? = some p) :
    Find Hash KeyEqual t p.1 = .ok i ∧
      ∃ d, d < t.capacity ∧ i = (Hash p.1 % t.capacity + d) % t.capacity ∧
        ∀ d2, d2 < d →
          t.is_empty_[(Hash p.1 % t.capacity + d2) % t.capacity]? = some false ∧
            ∃ q, t.hash_map_[(Hash p.1 % t.capacity + d2) % t.capacity]? = some q ∧
              KeyEqual p.1 q.1 = false := by
  obtain ⟨hinv, _⟩ := reached_spec hl ops hnc t hrun
  have hf := hinv.1.probe i p h1 h2
  obtain ⟨d, hd, hrd, _, hall⟩ := Find_walk t p.1 i hf
  exact ⟨hf, d, hd, hrd, hall⟩

/-- C15 on the table holding keys 1, 13 and 25, for slot 3, which holds key
25 two steps after its home slot 1. -/
theorem C15_witness :
    run natHash natEq ops3 = .ok table3 ∧
      Find natHash natEq table3 (25, 30).1 = .ok 3 ∧
      ∃ d, d < table3.capacity ∧
        3 = (natHash (25, 30).1 % table3.capacity + d) % table3.capacity ∧
        ∀ d2, d2 < d →
          table3.is_empty_[(natHash (25, 30).1 % table3.capacity + d2) % table3.capacity]? =
              some false ∧
            ∃ q, table3.hash_map_[(natHash (25, 30).1 % table3.capacity + d2) %
                table3.capacity]? = some q ∧
              natEq (25, 30).1 q.1 = false :=
  ⟨run_ops3,
    C15_probe_sequence_invariant natLawful ops3 (by decide) table3 (by rfl) 3 (25, 30)
      (by rfl) (by rfl)⟩

/-- C16: in a reached table no two distinct occupied slots hold equal keys. -/
theorem C16_key_uniqueness (hl : LawfulHash Hash KeyEqual) (ops : List (Op K V))
    (hnc : ∀ op ∈ ops, op.isClear = false) (t : HashTable K V)
    (hrun : run Hash KeyEqual ops = .ok t) (i j : Nat) (p q : K × V)
    (hi1 : t.is_empty_[i]? = some false) (hi2 : t.hash_map_[i]? = some p)
    (hj1 : t.is_empty_[j]? = some false) (hj2 : t.hash_map_[j]? = some q)
    (hij : i ≠ j) : KeyEqual p.1 q.1 = false := by
  obtain ⟨hinv, _⟩ := reached_spec hl ops hnc t hrun
  by_contra hk
  have hk2 : KeyEqual p.1 q.1 = true := by simpa using hk
  exact hij (hinv.1.unique hl i j p q hi1 hi2 hj1 hj2 hk2)

/-- C16 on the table holding keys 1, 13 and 25, for slots 1 and 2. -/
theorem C16_witness :
    run natHash natEq ops3 = .ok table3 ∧ natEq (1, 10).1 (13, 20).1 = false :=
  ⟨run_ops3,
    C16_key_uniqueness natLawful ops3 (by decide) table3 (by rfl) 1 2 (1, 10) (13, 20)
      (by rfl) (by rfl) (by rfl) (by rfl) (by decide)⟩

/-- C17: in a reached table the slot array and the marker array both have the
length `capacity`, `size()` is the number of slots marked occupied, and
`size() <= capacity`. -/
theorem C17_count_and_pairing (hl : LawfulHash Hash KeyEqual) (ops : List (Op K V))
    (hnc : ∀ op ∈ ops, op.isClear = false) (t : HashTable K V)
    (hrun : run Hash KeyEqual ops = .ok t) :
    t.hash_map_.length = t.capacity ∧ t.is_empty_.length = t.capacity ∧
      t.size = t.is_empty_.count false ∧ 0 ≤ t.size ∧ t.size ≤ t.capacity := by
  obtain ⟨hinv, _⟩ := reached_spec hl ops hnc t hrun
  refine ⟨rfl, hinv.1.len_eq.symm, hinv.1.count_eq, Nat.zero_le _, ?_⟩
  exact Nat.le_of_lt hinv.1.room

/-- C17 on the table holding keys 1, 13 and 25. -/
theorem C17_witness :
    run natHash natEq ops3 = .ok table3 ∧
      table3.hash_map_.length = table3.capacity ∧ table3.is_empty_.length = table3.capacity ∧
      table3.size = table3.is_empty_.count false ∧ 0 ≤ table3.size ∧
      table3.size ≤ table3.capacity :=
  ⟨run_ops3, C17_count_and_pairing natLawful ops3 (by decide) table3 (by rfl)⟩

/-- C18: in a table whose two arrays have one length, `begin()` returns the
smallest occupied index, or `end()` when no slot is occupied; `operator++` on
an iterator at an index `i < capacity` returns the smallest occupied index
greater than `i`, or the capacity when there is none; and the indices visited
from `begin()` to `end()` are the occupied indices, all of them, in strictly
increasing order. -/
theorem C18_iteration_order_and_stepping (t : HashTable K V)
    (hlen : t.hash_map_.length = t.is_empty_.length) :
    (∃ b, t.begin_ = .ok b ∧ b ≤ t.capacity ∧
        (b < t.capacity → t.is_empty_[b]? = some false) ∧
        (∀ m, m < b → t.is_empty_[m]? = some true) ∧
        (b = t.end_ ↔ ∀ m, m < t.capacity → t.is_empty_[m]? = some true)) ∧
      (∀ i, i < t.capacity →
        ∃ j, t.next i = .ok j ∧ i < j ∧ j ≤ t.capacity ∧
          (j < t.capacity → t.is_empty_[j]? = some false) ∧
          ∀ m, i < m → m < j → t.is_empty_[m]? = some true) ∧
      (∃ l, t.visit = .ok l ∧ l = t.occupiedIndices ∧
        l.Pairwise (fun a b => a < b) ∧ l.Nodup ∧
        ∀ i, i ∈ l ↔ t.is_empty_[i]? = some false) := by
  unfold HashTable.capacity HashTable.end_
  refine ⟨?_, ?_, ?_⟩
  · obtain ⟨b, hb, _, h2, h3, h4, _⟩ :=
      beginLoop_spec t hlen t.hash_map_.length 0 (t.hash_map_.length + 1) (by omega) (by omega)
    refine ⟨b, hb, h2, h3, fun m hm => h4 m (Nat.zero_le _) hm, ?_⟩
    constructor
    · intro hbe m hm
      exact h4 m (Nat.zero_le _) (by omega)
    · intro hall
      by_contra hne
      have h5 := h3 (by omega)
      rw [hall b (by omega)] at h5
      cases h5
  · intro i hi
    obtain ⟨j, hj, h1, h2, h3, h4, _⟩ :=
      nextLoop_spec t hlen (t.hash_map_.length - (i + 1)) i t.hash_map_.length
        (by omega) (by omega)
    exact ⟨j, hj, h1, h2, h3, h4⟩
  · refine ⟨t.occupiedIndices, visit_eq_occupiedIndices t hlen, rfl,
      pairwise_occupiedIndices t, ?_, mem_occupiedIndices t hlen⟩
    exact (pairwise_occupiedIndices t).imp (fun h => Nat.ne_of_lt h)

/-- C18 on the table after the fourth insertion, whose occupied slots are 1,
2, 3 and 13. -/
theorem C18_witness :
    table4.visit = .ok [1, 2, 3, 13] ∧
      (∃ b, table4.begin_ = .ok b ∧ b ≤ table4.capacity ∧
        (b < table4.capacity → table4.is_empty_[b]? = some false) ∧
        (∀ m, m < b → table4.is_empty_[m]? = some true) ∧
        (b = table4.end_ ↔ ∀ m, m < table4.capacity → table4.is_empty_[m]? = some true)) ∧
      (∀ i, i < table4.capacity →
        ∃ j, table4.next i = .ok j ∧ i < j ∧ j ≤ table4.capacity ∧
          (j < table4.capacity → table4.is_empty_[j]? = some false) ∧
          ∀ m, i < m → m < j → table4.is_empty_[m]? = some true) ∧
      (∃ l, table4.visit = .ok l ∧ l = table4.occupiedIndices ∧
        l.Pairwise (fun a b => a < b) ∧ l.Nodup ∧
        ∀ i, i ∈ l ↔ table4.is_empty_[i]? = some false) :=
  ⟨rfl, C18_iteration_order_and_stepping table4 (by rfl)⟩

/-- C19: inserting pairs with pairwise different keys into a fresh table in
two orders gives tables of the same `size()` and the same capacity on which
`at(k)` has the same outcome for every key: it returns the same value or
throws in both, and does nothing else. -/
theorem C19_insertion_order_irrelevant (hl : LawfulHash Hash KeyEqual) (ps qs : List (K × V))
    (hd : ps.Pairwise (fun a b => KeyEqual a.1 b.1 = false)) (hperm : List.Perm ps qs) :
    ∃ t1 t2, run Hash KeyEqual (ps.map Op.insert) = .ok t1 ∧
      run Hash KeyEqual (qs.map Op.insert) = .ok t2 ∧
      t1.size = t2.size ∧ t1.capacity = t2.capacity ∧
      ∀ k : K,
        (∀ v : V, HashTable.at Hash KeyEqual t1 k = .ok (v, t1) ↔
          HashTable.at Hash KeyEqual t2 k = .ok (v, t2)) ∧
        (HashTable.at Hash KeyEqual t1 k = .error .exception ↔
          HashTable.at Hash KeyEqual t2 k = .error .exception) ∧
        (HashTable.at Hash KeyEqual t1 k = .error .exception ∨
          ∃ v, HashTable.at Hash KeyEqual t1 k = .ok (v, t1)) := by
  have hd2 : qs.Pairwise (fun a b => KeyEqual a.1 b.1 = false) :=
    (hperm.pairwise_iff (fun h => keys_differ_symm hl h)).1 hd
  obtain ⟨t1, hrun1, hinv1, _⟩ := run_spec hl _ (inserts_no_clear ps)
  obtain ⟨t2, hrun2, hinv2, _⟩ := run_spec hl _ (inserts_no_clear qs)
  have hmem : ∀ q : K × V, q ∈ t1.entries ↔ q ∈ t2.entries := by
    intro q
    rw [mem_entries_of_inserts hl ps hd t1 hrun1, mem_entries_of_inserts hl qs hd2 t2 hrun2]
    exact hperm.mem_iff
  have hstored : ∀ (k : K) (v : V), t1.Stored KeyEqual k v ↔ t2.Stored KeyEqual k v := by
    intro k v
    unfold HashTable.Stored
    constructor
    · rintro ⟨p, hp, r⟩
      exact ⟨p, (hmem p).1 hp, r⟩
    · rintro ⟨p, hp, r⟩
      exact ⟨p, (hmem p).2 hp, r⟩
  have hcontains : ∀ k : K, t1.contains KeyEqual k = false ↔ t2.contains KeyEqual k = false := by
    intro k
    unfold HashTable.contains
    rw [List.any_eq_false, List.any_eq_false]
    constructor
    · intro h p hp
      exact h p ((hmem p).2 hp)
    · intro h p hp
      exact h p ((hmem p).1 hp)
  have hsize : t1.elements_count_ = t2.elements_count_ := by
    rw [← entries_length hinv1.1, ← entries_length hinv2.1]
    exact ((List.perm_ext_iff_of_nodup (entries_nodup hl hinv1.1)
      (entries_nodup hl hinv2.1)).2 hmem).length_eq
  have hload1 : 4 * t1.elements_count_ ≤ t1.hash_map_.length := by
    have := hinv1.2
    simp only [MAX_LOAD_FACTOR_DEN, MAX_LOAD_FACTOR_NUM] at this
    omega
  have hload2 : 4 * t2.elements_count_ ≤ t2.hash_map_.length := by
    have := hinv2.2
    simp only [MAX_LOAD_FACTOR_DEN, MAX_LOAD_FACTOR_NUM] at this
    omega
  refine ⟨t1, t2, hrun1, hrun2, hsize, ?_, ?_⟩
  · exact (reached_capInv hl _ (inserts_no_clear ps) t1 hrun1).capacity_unique
      (reached_capInv hl _ (inserts_no_clear qs) t2 hrun2) hsize hload1 hload2
  · intro k
    refine ⟨?_, ?_, ?_⟩
    · intro v
      rw [at_ok_iff hl hinv1.1, at_ok_iff hl hinv2.1]
      exact hstored k v
    · rw [at_exception_iff hl hinv1.1, at_exception_iff hl hinv2.1]
      exact hcontains k
    · cases hc : t1.contains KeyEqual k with
      | false => exact Or.inl (at_of_absent hl hinv1.1 k hc)
      | true =>
        obtain ⟨w, hw⟩ := (contains_true_iff t1 k).1 hc
        exact Or.inr ⟨w, at_of_stored hl hinv1.1 k w hw⟩

/-- C19 for the pairs `(1, 10)`, `(13, 20)`, whose keys collide in slot 1, and
the opposite order: the slot layouts differ, the contents do not. -/
theorem C19_witness :
    [((1 : Nat), (10 : Nat)), (13, 20)].Pairwise (fun a b => natEq a.1 b.1 = false) ∧
      ∃ t1 t2, run natHash natEq ([(1, 10), (13, 20)].map Op.insert) = .ok t1 ∧
        run natHash natEq ([(13, 20), (1, 10)].map Op.insert) = .ok t2 ∧
        t1.size = t2.size ∧ t1.capacity = t2.capacity ∧
        ∀ k : Nat,
          (∀ v : Nat, HashTable.at natHash natEq t1 k = .ok (v, t1) ↔
            HashTable.at natHash natEq t2 k = .ok (v, t2)) ∧
          (HashTable.at natHash natEq t1 k = .error .exception ↔
            HashTable.at natHash natEq t2 k = .error .exception) ∧
          (HashTable.at natHash natEq t1 k = .error .exception ∨
            ∃ v, HashTable.at natHash natEq t1 k = .ok (v, t1)) :=
  ⟨by decide,
    C19_insertion_order_irrelevant natLawful [(1, 10), (13, 20)] [(13, 20), (1, 10)]
      (by decide) (List.Perm.swap _ _ _)⟩

/-- C20: on a reached table, the iterator returned by `insert((k, v))` is the
index of an occupied slot of the resulting table that holds a key equal to `k`:
with the value `v` and the key `k` itself when the call reports `true`, also
when it grew the table, and with the value stored before, in the unchanged
table, when it reports `false`. -/
theorem C20_insert_iterator_points_at_key (hl : LawfulHash Hash KeyEqual)
    (ops : List (Op K V)) (hnc : ∀ op ∈ ops, op.isClear = false) (t : HashTable K V)
    (hrun : run Hash KeyEqual ops = .ok t) (k : K) (v : V) :
    ∃ i b t2, HashTable.insert Hash KeyEqual t (k, v) = .ok ((i, b), t2) ∧
      t2.is_empty_[i]? = some false ∧
      (b = true → t2.hash_map_[i]? = some (k, v)) ∧
      (b = false → t2 = t ∧ ∃ k2 w, t.hash_map_[i]? = some (k2, w) ∧
        KeyEqual k k2 = true ∧ t.Stored KeyEqual k w) := by
  obtain ⟨hinv, _⟩ := reached_spec hl ops hnc t hrun
  cases hc : t.contains KeyEqual k with
  | false =>
    obtain ⟨t2, j, hins, _, _, h1, h2, _⟩ := insert_of_absent hl hinv k v hc
    refine ⟨j, true, t2, hins, h1, fun _ => h2, ?_⟩
    intro hb
    cases hb
  | true =>
    obtain ⟨w, hw⟩ := (contains_true_iff t k).1 hc
    obtain ⟨i, hf, h1, hins⟩ := insert_of_stored hl hinv.1 k w v hw
    obtain ⟨j, k2, g1, g2, hk⟩ := (stored_iff t k w).1 hw
    have hfj := hinv.1.find_of_holds hl k j (k2, w) g1 g2 hk
    rw [hf] at hfj
    cases hfj
    refine ⟨i, false, t, hins, h1, ?_, fun _ => ⟨rfl, k2, w, g2, hk, hw⟩⟩
    intro hb
    cases hb

/-- C20 on the table holding keys 1, 13 and 25, for the pair `(2, 40)`, whose
insertion grows the table. -/
theorem C20_witness :
    run natHash natEq ops3 = .ok table3 ∧
      ∃ i b t2, HashTable.insert natHash natEq table3 (2, 40) = .ok ((i, b), t2) ∧
        t2.is_empty_[i]? = some false ∧
        (b = true → t2.hash_map_[i]? = some (2, 40)) ∧
        (b = false → t2 = table3 ∧ ∃ k2 w, table3.hash_map_[i]? = some (k2, w) ∧
          natEq 2 k2 = true ∧ table3.Stored natEq 2 w) :=
  ⟨run_ops3,
    C20_insert_iterator_points_at_key natLawful ops3 (by decide) table3 (by rfl) 2 40⟩

end Claims

end HashMap
